import Mathlib

/-!
Verification of the free-text-to-structured-record normalization pipeline of
`app.py` (daily report tool): the text normalizers `str_to_list`,
`kvlist_to_json`, `qty_to_json`, the inline activities parsing, the
`*_to_text` serializers, the manual-wins merge in the submit handler, the
photo upload loop, and the persist/reset logic.

Strings are modelled as `List Char`.  Python's `int(str)` / `float(str)` are
modelled on the ASCII decimal subset (optional sign, decimal digits, for
floats a decimal point and an optional exponent; no underscores, no unicode
digits, no inf/nan, and float values are exact rationals rather than IEEE
doubles).  All definitions are executable.
-/

namespace DailyReport

/-- Python whitespace characters (ASCII subset of `str.strip` / `str.split`). -/
def isSpaceChar (c : Char) : Bool :=
  c == ' ' || c == '\t' || c == '\n' || c == '\r' || c == '\x0b' || c == '\x0c'

/-- Remove trailing whitespace (`str.rstrip`). -/
def stripEnd (l : List Char) : List Char :=
  (l.reverse.dropWhile isSpaceChar).reverse

/-- Python `str.strip()`. -/
def pyStrip (l : List Char) : List Char :=
  stripEnd (l.dropWhile isSpaceChar)

/-- Python `str.replace(a, b)` for single characters. -/
def replaceChar (a b : Char) (l : List Char) : List Char :=
  l.map (fun c => if c = a then b else c)

/-- Split on characters satisfying `p`, keeping empty pieces
(Python `str.split(sep)` semantics when `p` holds exactly on `sep`). -/
def splitP (p : Char → Bool) : List Char → List (List Char)
  | [] => [[]]
  | c :: rest =>
      if p c then [] :: splitP p rest
      else
        match splitP p rest with
        | [] => [[c]]
        | a :: as => (c :: a) :: as

/-- Python `str.split(sep)` for a one-character separator. -/
def splitChar (sep : Char) (l : List Char) : List (List Char) :=
  splitP (fun c => c == sep) l

/-- Python `str.split()` with no argument: split on whitespace runs,
dropping empty pieces. -/
def splitWs (l : List Char) : List (List Char) :=
  (splitP isSpaceChar l).filter (· ≠ [])

/-- Python `str.split(sep, 1)`: the part before the first `sep` and the part
after it.  (Only used under a `sep ∈ l` guard, as in the source.) -/
def splitFirst (sep : Char) : List Char → List Char × List Char
  | [] => ([], [])
  | c :: rest =>
      if c = sep then ([], rest)
      else
        let r := splitFirst sep rest
        (c :: r.1, r.2)

/-- Scanner deleting a `\n` that immediately follows a `\r` (`prevCr` says
whether the previous kept character was `\r`). -/
def dropNlAfterCr (prevCr : Bool) : List Char → List Char
  | [] => []
  | c :: rest =>
      if prevCr = true ∧ c = '\n' then dropNlAfterCr false rest
      else c :: dropNlAfterCr (c == '\r') rest

/-- Drop the trailing empty piece of a split, matching `str.splitlines()`'s
no-final-empty-line behavior. -/
def lastTrim (P : List (List Char)) : List (List Char) :=
  if P.getLast? = some [] then P.dropLast else P

/-- Python `str.splitlines()` on the `\n` / `\r\n` / `\r` line boundaries
(the exotic unicode boundaries are not modelled): collapse `\r\n` to one
boundary, turn every boundary into `\n`, split, and drop the trailing empty
piece. -/
def splitLines (l : List Char) : List (List Char) :=
  lastTrim (splitChar '\n' (replaceChar '\r' '\n' (dropNlAfterCr false l)))

/-- Python `sep.join(pieces)`. -/
def joinSep (sep : List Char) : List (List Char) → List Char
  | [] => []
  | [x] => x
  | x :: xs => x ++ sep ++ joinSep sep xs

/-! ## Numeric coercion -/

/-- Base-10 value of a big-endian list of digit characters. -/
def digitsVal (l : List Char) : Nat :=
  l.foldl (fun a c => a * 10 + (c.toNat - 48)) 0

/-- Nonempty and all decimal digits. -/
def allDigits (l : List Char) : Bool :=
  !l.isEmpty && l.all Char.isDigit

/-- Python `int(str)` on the ASCII decimal subset: strip, optional sign,
nonempty digit run; `none` models `ValueError`. -/
def pyInt (v : List Char) : Option Int :=
  match pyStrip v with
  | [] => none
  | c :: r =>
      if c = '+' then (if allDigits r then some ((digitsVal r : Nat) : Int) else none)
      else if c = '-' then (if allDigits r then some (-(digitsVal r : Nat) : Int) else none)
      else (if allDigits (c :: r) then some ((digitsVal (c :: r) : Nat) : Int) else none)

/-- `10^e` over ℚ for an integer exponent, executably. -/
def ratPow10 (e : Int) : Rat :=
  if 0 ≤ e then ((10 ^ e.toNat : Nat) : Rat) else 1 / ((10 ^ (-e).toNat : Nat) : Rat)

/-- Value of a decimal literal: mantissa `m` with `f` fractional digits and
exponent `e`. -/
def ratOfParts (m : Nat) (f : Nat) (e : Int) : Rat :=
  (m : Rat) / ((10 ^ f : Nat) : Rat) * ratPow10 e

/-- Optional exponent suffix of a float literal: empty, or `e`/`E` followed by
an optionally signed digit run. -/
def parseExpPart : List Char → Option Int
  | [] => some 0
  | c :: r =>
      if c = 'e' ∨ c = 'E' then
        match r with
        | [] => none
        | d :: r2 =>
            if d = '+' then (if allDigits r2 then some ((digitsVal r2 : Nat) : Int) else none)
            else if d = '-' then (if allDigits r2 then some (-(digitsVal r2 : Nat) : Int) else none)
            else (if allDigits (d :: r2) then some ((digitsVal (d :: r2) : Nat) : Int) else none)
      else none

/-- Unsigned body of a float literal: `digits [. digits]`, `. digits`,
optionally followed by an exponent.  The leading digit run is
`l.takeWhile isDigit`; when a `.` follows, the fractional run is peeled off
the tail in the same way. -/
def parseFloatBody (l : List Char) : Option Rat :=
  if (l.dropWhile Char.isDigit).head? = some '.' then
    if l.takeWhile Char.isDigit = [] ∧
        ((l.dropWhile Char.isDigit).tail.takeWhile Char.isDigit) = [] then none
    else
      (parseExpPart ((l.dropWhile Char.isDigit).tail.dropWhile Char.isDigit)).map
        (fun e => ratOfParts
          (digitsVal (l.takeWhile Char.isDigit ++
            (l.dropWhile Char.isDigit).tail.takeWhile Char.isDigit))
          ((l.dropWhile Char.isDigit).tail.takeWhile Char.isDigit).length e)
  else
    if l.takeWhile Char.isDigit = [] then none
    else (parseExpPart (l.dropWhile Char.isDigit)).map
      (fun e => ratOfParts (digitsVal (l.takeWhile Char.isDigit)) 0 e)

/-- Python `float(str)` on the ASCII finite-decimal subset: strip, optional
sign, decimal body with optional exponent; `none` models `ValueError`. -/
def pyFloat (v : List Char) : Option Rat :=
  match pyStrip v with
  | [] => none
  | c :: r =>
      if c = '+' then parseFloatBody r
      else if c = '-' then (parseFloatBody r).map Neg.neg
      else parseFloatBody (c :: r)

/-- A Python value held in a `count` / `value` cell: int, float, or the
original string. -/
inductive PyVal where
  | vInt : Int → PyVal
  | vFloat : Rat → PyVal
  | vStr : List Char → PyVal
deriving DecidableEq

/-- The coercion in `kvlist_to_json`: `try int(v)` then `try float(v)` then
the string itself (the bare `except` makes this total). -/
def pyCoerce (v : List Char) : PyVal :=
  match pyInt v with
  | some n => PyVal.vInt n
  | none =>
      match pyFloat v with
      | some q => PyVal.vFloat q
      | none => PyVal.vStr v

/-- The coercion in `qty_to_json`: `try float(val)` then the string itself
(no int attempt in the source). -/
def qtyCoerce (v : List Char) : PyVal :=
  match pyFloat v with
  | some q => PyVal.vFloat q
  | none => PyVal.vStr v

/-! ## Decimal reprs (Python `str()` of ints and floats) -/

/-- Digit characters of a natural number, big-endian (`str(n)` for `n : ℕ`). -/
def reprNat (n : Nat) : List Char :=
  if n = 0 then ['0'] else (Nat.digits 10 n).reverse.map (fun d => Char.ofNat (48 + d))

/-- Python `str(i)` for an int. -/
def reprInt (i : Int) : List Char :=
  if i < 0 then '-' :: reprNat i.natAbs else reprNat i.natAbs

/-- Multiplicity of `p` in `n` (`0` when `p < 2` or `n = 0`). -/
def factorCount (p n : Nat) : Nat :=
  if h : 2 ≤ p ∧ 0 < n ∧ p ∣ n then factorCount p (n / p) + 1 else 0
termination_by n
decreasing_by
  exact Nat.div_lt_self h.2.1 (by omega)

/-- Number of decimal fractional digits needed for `q` (when `q.den` divides
a power of 10). -/
def floatK (q : Rat) : Nat := max (factorCount 2 q.den) (factorCount 5 q.den)

/-- `|q| * 10 ^ floatK q` as a natural number (exact when `q.den ∣ 10 ^ floatK q`). -/
def floatM (q : Rat) : Nat := q.num.natAbs * 10 ^ floatK q / q.den

/-- Digit string of `floatM q`, zero-padded on the left to at least
`floatK q + 1` digits. -/
def floatDs (q : Rat) : List Char :=
  List.replicate (floatK q + 1 - (reprNat (floatM q)).length) '0' ++ reprNat (floatM q)

/-- Integer-part digits of `|q|`. -/
def floatIp (q : Rat) : List Char := (floatDs q).take ((floatDs q).length - floatK q)

/-- Fractional-part digits of `|q|` (a single `0` when there are none). -/
def floatFp (q : Rat) : List Char :=
  if (floatDs q).drop ((floatDs q).length - floatK q) = [] then ['0']
  else (floatDs q).drop ((floatDs q).length - floatK q)

/-- Python `str(x)` for a float whose value is the rational `q`, idealized to
a plain (never exponent) exact decimal `intpart.fracpart`; it round-trips
through `float()` exactly like CPython's shortest repr does. -/
def reprFloat (q : Rat) : List Char :=
  if q.num < 0 then '-' :: (floatIp q ++ '.' :: floatFp q)
  else floatIp q ++ '.' :: floatFp q

/-- Python `str()` of a `count` / `value` cell. -/
def pyValStr : PyVal → List Char
  | .vInt n => reprInt n
  | .vFloat q => reprFloat q
  | .vStr s => s

/-! ## Records -/

def chTrade : List Char := "trade".data
def chType : List Char := "type".data

/-- One `{trade|type: key, count: value}` record from `kvlist_to_json`
(`keyName` records which dict key the flag selected). -/
structure KVRec where
  keyName : List Char
  key : List Char
  count : PyVal
deriving DecidableEq

/-- One `{location, description}` activity record. -/
structure ActRec where
  location : List Char
  description : List Char
deriving DecidableEq

/-- One `{item, unit, value}` quantity record. -/
structure QtyRec where
  item : List Char
  unit : List Char
  value : PyVal
deriving DecidableEq

/-! ## Source normalizers (translated from `app.py`) -/

/-- `str_to_list` (app.py 113-116). -/
def str_to_list (s : List Char) : List (List Char) :=
  if pyStrip s = [] then []
  else
    ((splitChar ',' (replaceChar ';' ',' (replaceChar '\n' ',' s))).map pyStrip).filter (· ≠ [])

/-- The record built for one item in the `kvlist_to_json` loop (app.py
124-129): split on the first `kv_sep`, trim both halves, coerce the value. -/
def kvItemRec (kv_sep : Char) (crew_hint : Bool) (it : List Char) : KVRec :=
  { keyName := if crew_hint then chTrade else chType,
    key := pyStrip (splitFirst kv_sep it).1,
    count := pyCoerce (pyStrip (splitFirst kv_sep it).2) }

/-- `kvlist_to_json` (app.py 118-130); callers pass `kv_sep = ':'`,
`item_sep = ','`. -/
def kvlist_to_json (s : List Char) (kv_sep item_sep : Char) (crew_hint : Bool) : List KVRec :=
  if pyStrip s = [] then []
  else
    (((splitChar item_sep (replaceChar '\n' item_sep s)).map pyStrip).filter (· ≠ [])).foldl
      (fun out it => if kv_sep ∈ it then out ++ [kvItemRec kv_sep crew_hint it] else out) []

/-- `left` of one `qty_to_json` line: the trimmed text before the first `:`
(app.py 137). -/
def qtyLeft (line : List Char) : List Char := pyStrip (splitFirst ':' line).1

/-- The trimmed text after the first `:` of a `qty_to_json` line (app.py 137). -/
def qtyVal (line : List Char) : List Char := pyStrip (splitFirst ':' line).2

/-- `left.split()` (app.py 138). -/
def qtyParts (line : List Char) : List (List Char) := splitWs (qtyLeft line)

/-- `parts[-1]` (empty when there are no parts; only consulted when there are
at least two). -/
def qtyLastTok (line : List Char) : List Char := (qtyParts line).getLast?.getD []

/-- The unit-peeling test `len(parts) >= 2 and parts[-1].isalpha()` (app.py
139); Python `isalpha` is nonempty-and-all-alphabetic. -/
def qtyPeel (line : List Char) : Bool :=
  decide (2 ≤ (qtyParts line).length) &&
    (!(qtyLastTok line).isEmpty && (qtyLastTok line).all Char.isAlpha)

/-- The record built for one line in the `qty_to_json` loop (app.py 137-145). -/
def qtyLineRec (line : List Char) : QtyRec :=
  { item := if qtyPeel line then joinSep [' '] (qtyParts line).dropLast else qtyLeft line,
    unit := if qtyPeel line then qtyLastTok line else [],
    value := qtyCoerce (qtyVal line) }

/-- `qty_to_json` (app.py 132-146). -/
def qty_to_json (s : List Char) : List QtyRec :=
  if pyStrip s = [] then []
  else
    (((splitLines s).map pyStrip).filter (· ≠ [])).foldl
      (fun out line => if ':' ∈ line then out ++ [qtyLineRec line] else out) []

/-- The inline activities parsing in the submit handler (app.py 430-431):
normalize newlines to semicolons, split, trim, drop empties, wrap with an
empty location. -/
def actsParse (s : List Char) : List ActRec :=
  (((splitChar ';' (replaceChar '\n' ';' s)).map pyStrip).filter (· ≠ [])).map
    (fun p => { location := [], description := p })

/-! ## Serializers (`*_to_text`, app.py 148-167) -/

/-- Python `c.get(name, '')` on a kv record. -/
def kvGet (name : List Char) (r : KVRec) : List Char :=
  if r.keyName = name then r.key else []

def sepCommaSpace : List Char := [',', ' ']
def sepSemiSpace : List Char := [';', ' ']

/-- `crew_to_text` (app.py 148-150).  The source's `for c in crew if c`
filters falsy dicts, which cannot occur for records of this shape. -/
def crew_to_text (crew : List KVRec) : List Char :=
  if crew = [] then []
  else joinSep sepCommaSpace (crew.map (fun c => kvGet chTrade c ++ ':' :: ' ' :: pyValStr c.count))

/-- `equip_to_text` (app.py 152-154). -/
def equip_to_text (eq : List KVRec) : List Char :=
  if eq = [] then []
  else joinSep sepCommaSpace (eq.map (fun e => kvGet chType e ++ ':' :: ' ' :: pyValStr e.count))

/-- `acts_to_text` (app.py 156-158). -/
def acts_to_text (acts : List ActRec) : List Char :=
  if acts = [] then []
  else joinSep sepSemiSpace (acts.map (fun a => a.description))

/-- `qtys_to_text` (app.py 160-167). -/
def qtys_to_text (qs : List QtyRec) : List Char :=
  if qs = [] then []
  else joinSep ['\n'] (qs.map (fun q =>
    pyStrip (q.item ++ ' ' :: q.unit) ++ ':' :: ' ' :: pyValStr q.value))

/-! ## Extraction object and the submit-handler merge (app.py 422-437) -/

/-- The structured object produced by `extract_structured_with_gpt`
(app.py 240-247).  The submit handler reads it only through
`extracted.get(field, default)`, so the `{}` returned on failure, in safe
mode, or when extraction is skipped behaves exactly like this object with
every field empty (`emptyExtracted`). -/
structure ExtractedFields where
  crew_counts : List KVRec
  equipment : List KVRec
  activities : List ActRec
  quantities : List QtyRec
  safety : List Char
  issues_delays : List Char
deriving DecidableEq

/-- The `{}` dictionary seen through the submit handler's `.get` defaults:
extraction skipped, disabled, or failed (app.py 217, 248-250, 422). -/
def emptyExtracted : ExtractedFields :=
  { crew_counts := [], equipment := [], activities := [], quantities := [],
    safety := [], issues_delays := [] }

/-- The merged fields plus `subs_present` built by the submit handler. -/
structure MergedFields where
  crew_counts_final : List KVRec
  equipment_final : List KVRec
  activities_final : List ActRec
  quantities_final : List QtyRec
  safety_final : List Char
  issues_final : List Char
  subs_present : List (List Char)
deriving DecidableEq

/-- The merge block of the submit handler (app.py 427-437).  Python `a or b`
is `if a is truthy then a else b`: truthiness is nonemptiness for lists and
strings, with no stripping. -/
def mergeFields (crew_text equip_text activities_text quantities_text subs_text
    safety_text issues_text : List Char) (extracted : ExtractedFields) : MergedFields :=
  { crew_counts_final :=
      if kvlist_to_json crew_text ':' ',' true ≠ [] then kvlist_to_json crew_text ':' ',' true
      else extracted.crew_counts,
    equipment_final :=
      if kvlist_to_json equip_text ':' ',' false ≠ [] then kvlist_to_json equip_text ':' ',' false
      else extracted.equipment,
    activities_final :=
      if pyStrip activities_text ≠ [] then actsParse activities_text
      else extracted.activities,
    quantities_final :=
      if qty_to_json quantities_text ≠ [] then qty_to_json quantities_text
      else extracted.quantities,
    safety_final := if safety_text ≠ [] then safety_text else extracted.safety,
    issues_final := if issues_text ≠ [] then issues_text else extracted.issues_delays,
    subs_present := str_to_list subs_text }

/-- The extraction step of the submit handler (app.py 418-424): the `{}`
placeholder is replaced by the collaborator's result only when the checkbox
is on and the combined notes+transcript text is non-blank. -/
def submitExtracted (use_llm : Bool) (combined_text : List Char)
    (llmResult : ExtractedFields) : ExtractedFields :=
  if use_llm && !(pyStrip combined_text).isEmpty then llmResult else emptyExtracted

/-! ## Photo upload loop (app.py 397-415) -/

/-- Outcome of `upload_photo_safe` for one photo: `none` models the
exception branch returning `None`; `some []` models `upload_bytes_to_bucket`
returning `""` on a caught upload error; `some url` a successful upload. -/
def photoUploadLoop (results : List (Option (List Char))) : List (List Char) :=
  results.foldl (fun acc r =>
    match r with
    | some url => if url ≠ [] then acc ++ [url] else acc
    | none => acc) []

/-! ## Session draft state, reset, persist (app.py 77-105, 458-467) -/

/-- The transient per-session draft state touched by `reset_all_fields`. -/
structure SessionState where
  recorded_audio : Option (List Char)
  transcript_prefill : List Char
  audio_hash : Option (List Char)
  skip_record_once : Bool
  crew_prefill : List Char
  equip_prefill : List Char
  acts_prefill : List Char
  qty_prefill : List Char
  safety_prefill : List Char
  issues_prefill : List Char
  nonce : Nat
deriving DecidableEq

/-- `reset_all_fields` (app.py 93-105). -/
def reset_all_fields (st : SessionState) : SessionState :=
  { recorded_audio := none, transcript_prefill := [], audio_hash := none,
    skip_record_once := true, crew_prefill := [], equip_prefill := [],
    acts_prefill := [], qty_prefill := [], safety_prefill := [],
    issues_prefill := [], nonce := st.nonce + 1 }

/-- The persistence tail of the submit handler (app.py 458-467): with no
store client, or when `insert` raises (caught by the outer `except`, which
reports the error), the session state is untouched; only on a successful
insert is success reported and `reset_all_fields` run.  Returns
(success reported, resulting session state). -/
def submitPersist (storeReady insertOk : Bool) (st : SessionState) :
    Bool × SessionState :=
  if storeReady then
    if insertOk then (true, reset_all_fields st) else (false, st)
  else (false, st)

/-! ## Lemmas about `pyStrip` -/

theorem dropWhile_length_le (p : Char → Bool) (l : List Char) :
    (l.dropWhile p).length ≤ l.length :=
  (List.dropWhile_sublist p).length_le

theorem stripEnd_length_le (l : List Char) : (stripEnd l).length ≤ l.length := by
  have h := dropWhile_length_le isSpaceChar l.reverse
  simpa [stripEnd] using h

theorem pyStrip_length_le (l : List Char) : (pyStrip l).length ≤ l.length := by
  have h1 := dropWhile_length_le isSpaceChar l
  have h2 := stripEnd_length_le (l.dropWhile isSpaceChar)
  unfold pyStrip
  omega

theorem stripEnd_append_space {c : Char} (h : isSpaceChar c = true) (l : List Char) :
    stripEnd (l ++ [c]) = stripEnd l := by
  simp [stripEnd, List.dropWhile_cons, h]

theorem stripEnd_append_not_space {c : Char} (h : isSpaceChar c = false) (l : List Char) :
    stripEnd (l ++ [c]) = l ++ [c] := by
  unfold stripEnd
  rw [show (l ++ [c]).reverse = c :: l.reverse from by simp]
  rw [List.dropWhile_cons, if_neg (by simp [h])]
  rw [List.reverse_cons, List.reverse_reverse]

theorem stripEnd_cons_not_space {c : Char} (h : isSpaceChar c = false) (l : List Char) :
    stripEnd (c :: l) = c :: stripEnd l := by
  unfold stripEnd
  rw [List.reverse_cons, List.dropWhile_append]
  by_cases hd : (l.reverse.dropWhile isSpaceChar).isEmpty
  · rw [List.isEmpty_iff] at hd
    simp [hd, List.dropWhile_cons, h]
  · rw [List.isEmpty_iff] at hd
    simp [hd]

theorem stripEnd_append (x y : List Char) :
    stripEnd (x ++ y) = if stripEnd y = [] then stripEnd x else x ++ stripEnd y := by
  unfold stripEnd
  rw [List.reverse_append, List.dropWhile_append]
  by_cases hy : (y.reverse.dropWhile isSpaceChar).isEmpty
  · rw [List.isEmpty_iff] at hy
    simp [hy]
  · rw [List.isEmpty_iff] at hy
    have hy2 : (y.reverse.dropWhile isSpaceChar).reverse ≠ [] := by simpa using hy
    simp [hy, hy2]

theorem pyStrip_cons_space {c : Char} (h : isSpaceChar c = true) (l : List Char) :
    pyStrip (c :: l) = pyStrip l := by
  simp [pyStrip, List.dropWhile_cons, h]

theorem pyStrip_cons_not_space {c : Char} (h : isSpaceChar c = false) (l : List Char) :
    pyStrip (c :: l) = c :: stripEnd l := by
  simp [pyStrip, List.dropWhile_cons, h, stripEnd_cons_not_space h]

theorem pyStrip_append_space {c : Char} (h : isSpaceChar c = true) (l : List Char) :
    pyStrip (l ++ [c]) = pyStrip l := by
  unfold pyStrip
  rw [List.dropWhile_append]
  by_cases hd : (l.dropWhile isSpaceChar).isEmpty
  · rw [List.isEmpty_iff] at hd
    simp [hd, List.dropWhile_cons, h]
  · rw [List.isEmpty_iff] at hd
    simp [hd, stripEnd_append_space h]

theorem mem_of_mem_stripEnd {c : Char} {l : List Char} (h : c ∈ stripEnd l) : c ∈ l := by
  unfold stripEnd at h
  rw [List.mem_reverse] at h
  have h2 := (List.dropWhile_sublist _).subset h
  rwa [List.mem_reverse] at h2

theorem mem_of_mem_pyStrip {c : Char} {l : List Char} (h : c ∈ pyStrip l) : c ∈ l :=
  (List.dropWhile_sublist _).subset (mem_of_mem_stripEnd h)

theorem mem_dropWhile_of_not {p : Char → Bool} {c : Char} {l : List Char}
    (hc : c ∈ l) (hp : p c = false) : c ∈ l.dropWhile p := by
  induction l with
  | nil => cases hc
  | cons a t ih =>
      rw [List.dropWhile_cons]
      by_cases ha : p a
      · rw [if_pos ha]
        rcases List.mem_cons.mp hc with rfl | h
        · rw [hp] at ha; cases ha
        · exact ih h
      · rw [if_neg ha]; exact hc

theorem mem_stripEnd_of_not {c : Char} {l : List Char} (hc : c ∈ l)
    (hp : isSpaceChar c = false) : c ∈ stripEnd l := by
  unfold stripEnd
  rw [List.mem_reverse]
  exact mem_dropWhile_of_not (List.mem_reverse.mpr hc) hp

theorem mem_pyStrip_of_not {c : Char} {l : List Char} (hc : c ∈ l)
    (hp : isSpaceChar c = false) : c ∈ pyStrip l :=
  mem_stripEnd_of_not (mem_dropWhile_of_not hc hp) hp

theorem mem_pyStrip_iff {c : Char} {l : List Char} (hp : isSpaceChar c = false) :
    c ∈ pyStrip l ↔ c ∈ l :=
  ⟨mem_of_mem_pyStrip, fun hc => mem_pyStrip_of_not hc hp⟩

theorem pyStrip_eq_nil_iff {l : List Char} :
    pyStrip l = [] ↔ ∀ c ∈ l, isSpaceChar c = true := by
  constructor
  · intro h c hc
    by_contra hcs
    have hm := mem_pyStrip_of_not hc (by simpa using hcs)
    rw [h] at hm
    cases hm
  · intro h
    unfold pyStrip
    rw [show l.dropWhile isSpaceChar = [] from
      List.dropWhile_eq_nil_iff.mpr (by simpa using h)]
    rfl

theorem dropWhile_eq_self_of {p : Char → Bool} {l : List Char}
    (h : ∀ c ∈ l, p c = false) : l.dropWhile p = l := by
  cases l with
  | nil => rfl
  | cons a t =>
      rw [List.dropWhile_cons, if_neg]
      simp [h a (List.mem_cons_self a t)]

theorem stripEnd_eq_self_of_no_space {l : List Char}
    (h : ∀ c ∈ l, isSpaceChar c = false) : stripEnd l = l := by
  unfold stripEnd
  rw [dropWhile_eq_self_of (fun c hc => h c (List.mem_reverse.mp hc)), List.reverse_reverse]

theorem pyStrip_eq_self_of_no_space {l : List Char}
    (h : ∀ c ∈ l, isSpaceChar c = false) : pyStrip l = l := by
  unfold pyStrip
  rw [dropWhile_eq_self_of h, stripEnd_eq_self_of_no_space h]

theorem dropWhile_idem (p : Char → Bool) (l : List Char) :
    (l.dropWhile p).dropWhile p = l.dropWhile p := by
  induction l with
  | nil => rfl
  | cons a t ih =>
      rw [List.dropWhile_cons]
      by_cases ha : p a
      · rw [if_pos ha, ih]
      · rw [if_neg ha, List.dropWhile_cons, if_neg ha]

theorem stripEnd_stripEnd (l : List Char) : stripEnd (stripEnd l) = stripEnd l := by
  show stripEnd ((l.reverse.dropWhile isSpaceChar).reverse) = stripEnd l
  unfold stripEnd
  rw [List.reverse_reverse, dropWhile_idem]

theorem dropWhile_fix_head {p : Char → Bool} {c : Char} {t : List Char}
    (h : (c :: t).dropWhile p = c :: t) : p c = false := by
  by_contra hc
  simp only [Bool.not_eq_false] at hc
  rw [List.dropWhile_cons, if_pos hc] at h
  have := dropWhile_length_le p t
  rw [h] at this
  simp at this

theorem dropWhile_stripEnd_fix {l : List Char} (h : l.dropWhile isSpaceChar = l) :
    (stripEnd l).dropWhile isSpaceChar = stripEnd l := by
  cases l with
  | nil => rfl
  | cons c t =>
      have hc := dropWhile_fix_head h
      rw [stripEnd_cons_not_space hc, List.dropWhile_cons, if_neg (by simp [hc])]

theorem pyStrip_idem (l : List Char) : pyStrip (pyStrip l) = pyStrip l := by
  show pyStrip (stripEnd (l.dropWhile isSpaceChar)) = pyStrip l
  unfold pyStrip
  rw [dropWhile_stripEnd_fix (dropWhile_idem isSpaceChar l), stripEnd_stripEnd]

theorem head_not_space_of_strip_fix {c : Char} {r : List Char}
    (h : pyStrip (c :: r) = c :: r) : isSpaceChar c = false := by
  by_contra hs
  simp only [Bool.not_eq_false] at hs
  rw [pyStrip_cons_space hs] at h
  have := pyStrip_length_le r
  rw [h] at this
  simp at this

/-! ## Lemmas about `splitP` / `splitChar` -/

theorem splitP_ne_nil (p : Char → Bool) (l : List Char) : splitP p l ≠ [] := by
  induction l with
  | nil => simp [splitP]
  | cons c t ih =>
      rw [splitP]
      by_cases hc : p c
      · simp [hc]
      · rw [if_neg hc]
        cases h : splitP p t with
        | nil => exact absurd h ih
        | cons a as => simp

theorem splitP_cons_sep {p : Char → Bool} {c : Char} (h : p c = true) (l : List Char) :
    splitP p (c :: l) = [] :: splitP p l := by
  rw [splitP, if_pos h]

theorem splitP_cons_not {p : Char → Bool} {c : Char} (h : p c = false) (l : List Char) :
    splitP p (c :: l) = (c :: (splitP p l).headI) :: (splitP p l).tail := by
  rw [splitP, if_neg (by simp [h])]
  cases hs : splitP p l with
  | nil => exact absurd hs (splitP_ne_nil p l)
  | cons a as => simp

theorem headI_append_of_ne_nil {x y : List (List Char)} (h : x ≠ []) :
    (x ++ y).headI = x.headI := by
  cases x with
  | nil => cases h rfl
  | cons a as => rfl

theorem tail_append_of_ne_nil {x y : List (List Char)} (h : x ≠ []) :
    (x ++ y).tail = x.tail ++ y := by
  cases x with
  | nil => cases h rfl
  | cons a as => rfl

theorem splitP_append_sep {p : Char → Bool} {c : Char} (h : p c = true) (a b : List Char) :
    splitP p (a ++ c :: b) = splitP p a ++ splitP p b := by
  induction a with
  | nil => rw [List.nil_append, splitP_cons_sep h, splitP]; rfl
  | cons d t ih =>
      by_cases hd : p d
      · rw [List.cons_append, splitP_cons_sep hd, splitP_cons_sep hd, ih, List.cons_append]
      · have hd' : p d = false := by simpa using hd
        rw [List.cons_append, splitP_cons_not hd', splitP_cons_not hd', ih,
          headI_append_of_ne_nil (splitP_ne_nil p t),
          tail_append_of_ne_nil (splitP_ne_nil p t), List.cons_append]

theorem splitP_of_all_not {p : Char → Bool} {l : List Char}
    (h : ∀ c ∈ l, p c = false) : splitP p l = [l] := by
  induction l with
  | nil => rfl
  | cons c t ih =>
      rw [splitP_cons_not (h c (List.mem_cons_self c t)),
        ih (fun d hd => h d (List.mem_cons_of_mem c hd))]
      rfl

theorem mem_splitP {p : Char → Bool} {l x : List Char} (hx : x ∈ splitP p l) :
    ∀ c ∈ x, c ∈ l ∧ p c = false := by
  induction l generalizing x with
  | nil =>
      simp [splitP] at hx
      simp [hx]
  | cons d t ih =>
      by_cases hd : p d
      · rw [splitP_cons_sep hd] at hx
        rcases List.mem_cons.mp hx with rfl | hx2
        · simp
        · intro c hc
          have := ih hx2 c hc
          exact ⟨List.mem_cons_of_mem d this.1, this.2⟩
      · have hd' : p d = false := by simpa using hd
        rw [splitP_cons_not hd'] at hx
        cases hh : splitP p t with
        | nil => exact absurd hh (splitP_ne_nil p t)
        | cons a as =>
            rw [hh] at hx
            rcases List.mem_cons.mp hx with rfl | hx2
            · intro c hc
              rcases List.mem_cons.mp hc with rfl | hc2
              · exact ⟨List.mem_cons_self c t, hd'⟩
              · have := ih (by rw [hh]; exact List.mem_cons_self a as) c (by
                  simpa using hc2)
                exact ⟨List.mem_cons_of_mem d this.1, this.2⟩
            · intro c hc
              have hx3 : x ∈ splitP p t := by
                rw [hh]
                exact List.mem_cons_of_mem a (by simpa using hx2)
              have := ih hx3 c hc
              exact ⟨List.mem_cons_of_mem d this.1, this.2⟩

theorem splitChar_cons_sep (sep : Char) (l : List Char) :
    splitChar sep (sep :: l) = [] :: splitChar sep l :=
  splitP_cons_sep (by simp) l

theorem splitChar_append_sep (sep : Char) (a b : List Char) :
    splitChar sep (a ++ sep :: b) = splitChar sep a ++ splitChar sep b :=
  splitP_append_sep (by simp) a b

theorem splitChar_of_not_mem {sep : Char} {l : List Char} (h : sep ∉ l) :
    splitChar sep l = [l] :=
  splitP_of_all_not (fun c hc => by
    simp only [beq_eq_false_iff_ne, ne_eq]
    rintro rfl
    exact h hc)

theorem mem_splitChar {sep : Char} {l x : List Char} (hx : x ∈ splitChar sep l) :
    ∀ c ∈ x, c ∈ l ∧ c ≠ sep := by
  intro c hc
  have := mem_splitP hx c hc
  refine ⟨this.1, ?_⟩
  have h2 := this.2
  simpa using h2

/-! ## Lemmas about `splitFirst` -/

theorem splitFirst_append_cons {sep : Char} {a : List Char} (h : sep ∉ a) (b : List Char) :
    splitFirst sep (a ++ sep :: b) = (a, b) := by
  induction a with
  | nil => simp [splitFirst]
  | cons x t ih =>
      have hx : x ≠ sep := fun he => h (he ▸ List.mem_cons_self x t)
      rw [List.cons_append, splitFirst, if_neg hx,
        ih (fun hm => h (List.mem_cons_of_mem x hm))]

theorem splitFirst_append_of_mem {sep : Char} {a : List Char} (h : sep ∈ a) (b : List Char) :
    splitFirst sep (a ++ b) =
      ((splitFirst sep a).1, (splitFirst sep a).2 ++ b) := by
  induction a with
  | nil => cases h
  | cons x t ih =>
      by_cases hx : x = sep
      · subst hx
        simp [splitFirst]
      · have ht : sep ∈ t := by
          rcases List.mem_cons.mp h with he | ht
          · exact absurd he.symm hx
          · exact ht
        rw [List.cons_append, splitFirst, if_neg hx, splitFirst, if_neg hx, ih ht]

theorem splitFirst_fst_not_mem (sep : Char) (l : List Char) :
    sep ∉ (splitFirst sep l).1 := by
  induction l with
  | nil => simp [splitFirst]
  | cons c t ih =>
      rw [splitFirst]
      by_cases hc : c = sep
      · simp [hc]
      · rw [if_neg hc]
        simp only [List.mem_cons, not_or]
        exact ⟨fun he => hc he.symm, ih⟩

theorem splitFirst_eq {sep : Char} {l : List Char} (h : sep ∈ l) :
    l = (splitFirst sep l).1 ++ sep :: (splitFirst sep l).2 := by
  induction l with
  | nil => cases h
  | cons c t ih =>
      by_cases hc : c = sep
      · subst hc
        simp [splitFirst]
      · have ht : sep ∈ t := by
          rcases List.mem_cons.mp h with he | ht
          · exact absurd he.symm hc
          · exact ht
        rw [splitFirst, if_neg hc]
        simpa using ih ht

theorem mem_splitFirst_fst {sep c : Char} {l : List Char}
    (h : c ∈ (splitFirst sep l).1) : c ∈ l := by
  induction l with
  | nil => simp [splitFirst] at h
  | cons d t ih =>
      rw [splitFirst] at h
      by_cases hd : d = sep
      · rw [if_pos hd] at h
        cases h
      · rw [if_neg hd] at h
        rcases List.mem_cons.mp h with rfl | h2
        · exact List.mem_cons_self c t
        · exact List.mem_cons_of_mem d (ih h2)

theorem mem_splitFirst_snd {sep c : Char} {l : List Char}
    (h : c ∈ (splitFirst sep l).2) : c ∈ l := by
  induction l with
  | nil => simp [splitFirst] at h
  | cons d t ih =>
      rw [splitFirst] at h
      by_cases hd : d = sep
      · rw [if_pos hd] at h
        exact List.mem_cons_of_mem d h
      · rw [if_neg hd] at h
        exact List.mem_cons_of_mem d (ih h)

/-! ## Lemmas about `replaceChar`, `joinSep` -/

theorem replaceChar_append (a b : Char) (x y : List Char) :
    replaceChar a b (x ++ y) = replaceChar a b x ++ replaceChar a b y :=
  List.map_append _ x y

theorem replaceChar_cons (a b c : Char) (l : List Char) :
    replaceChar a b (c :: l) = (if c = a then b else c) :: replaceChar a b l := rfl

theorem replaceChar_eq_self {a : Char} (b : Char) {l : List Char} (h : a ∉ l) :
    replaceChar a b l = l := by
  induction l with
  | nil => rfl
  | cons c t ih =>
      rw [replaceChar_cons, if_neg (fun he => h (by rw [← he]; exact List.mem_cons_self c t)),
        ih (fun hm => h (List.mem_cons_of_mem c hm))]

theorem mem_replaceChar {a b c : Char} {l : List Char} (h : c ∈ replaceChar a b l) :
    c = b ∨ (c ∈ l ∧ c ≠ a) := by
  induction l with
  | nil => cases h
  | cons d t ih =>
      rw [replaceChar_cons] at h
      rcases List.mem_cons.mp h with he | h2
      · by_cases hd : d = a
        · rw [if_pos hd] at he
          exact Or.inl (by rw [he])
        · rw [if_neg hd] at he
          refine Or.inr ⟨?_, ?_⟩
          · rw [he]; exact List.mem_cons_self d t
          · rw [he]; exact hd
      · rcases ih h2 with hb | ⟨hm, hne⟩
        · exact Or.inl hb
        · exact Or.inr ⟨List.mem_cons_of_mem d hm, hne⟩

theorem joinSep_cons (sep x : List Char) {xs : List (List Char)} (h : xs ≠ []) :
    joinSep sep (x :: xs) = x ++ sep ++ joinSep sep xs := by
  cases xs with
  | nil => cases h rfl
  | cons y ys => rfl

/-! ## foldl-append as filterMap -/

theorem foldl_if_append {α β : Type} (P : α → Prop) [DecidablePred P] (v : α → β)
    (l : List α) (init : List β) :
    l.foldl (fun out x => if P x then out ++ [v x] else out) init
      = init ++ l.filterMap (fun x => if P x then some (v x) else none) := by
  induction l generalizing init with
  | nil => simp
  | cons a t ih =>
      by_cases hp : P a
      · simp [hp, ih, List.foldl_cons]
      · simp [hp, ih, List.foldl_cons]

/-! ## Lemmas about `splitLines` -/

theorem dropNlAfterCr_nil (p : Bool) : dropNlAfterCr p [] = [] := by
  rw [dropNlAfterCr]

theorem dropNlAfterCr_cons (p : Bool) (c : Char) (rest : List Char) :
    dropNlAfterCr p (c :: rest)
      = if p = true ∧ c = '\n' then dropNlAfterCr false rest
        else c :: dropNlAfterCr (c == '\r') rest := by
  rw [dropNlAfterCr]

theorem mem_dropNlAfterCr {c : Char} : ∀ {p : Bool} {l : List Char},
    c ∈ dropNlAfterCr p l → c ∈ l := by
  intro p l
  induction l generalizing p with
  | nil => intro h; rw [dropNlAfterCr_nil] at h; cases h
  | cons d t ih =>
      intro h
      rw [dropNlAfterCr_cons] at h
      split at h
      · exact List.mem_cons_of_mem d (ih h)
      · rcases List.mem_cons.mp h with rfl | h2
        · exact List.mem_cons_self c t
        · exact List.mem_cons_of_mem d (ih h2)

/-- The normalized text: `\r\n` collapsed, every boundary a `\n`. -/
def nlNorm (l : List Char) : List Char :=
  replaceChar '\r' '\n' (dropNlAfterCr false l)

theorem splitLines_def (l : List Char) :
    splitLines l = lastTrim (splitChar '\n' (nlNorm l)) := rfl

theorem nlNorm_nil : nlNorm [] = [] := rfl

theorem nlNorm_cons_nl (l : List Char) : nlNorm ('\n' :: l) = '\n' :: nlNorm l := by
  unfold nlNorm
  rw [dropNlAfterCr_cons, if_neg (by simp), replaceChar_cons, if_neg (by decide)]
  rfl

theorem nlNorm_crnl (l : List Char) : nlNorm ('\r' :: '\n' :: l) = '\n' :: nlNorm l := by
  unfold nlNorm
  rw [dropNlAfterCr_cons, if_neg (by simp), replaceChar_cons, if_pos rfl,
    dropNlAfterCr_cons, if_pos (by simp)]

theorem nlNorm_cr_cons {c : Char} (h : c ≠ '\n') (l : List Char) :
    nlNorm ('\r' :: c :: l) = '\n' :: nlNorm (c :: l) := by
  unfold nlNorm
  rw [dropNlAfterCr_cons, if_neg (by simp), replaceChar_cons, if_pos rfl,
    dropNlAfterCr_cons, if_neg (by simp [h]), dropNlAfterCr_cons, if_neg (by simp)]

theorem nlNorm_cr_one : nlNorm ['\r'] = ['\n'] := by decide

theorem nlNorm_cons_other {c : Char} (h1 : c ≠ '\n') (h2 : c ≠ '\r') (l : List Char) :
    nlNorm (c :: l) = c :: nlNorm l := by
  unfold nlNorm
  rw [dropNlAfterCr_cons, if_neg (by simp [h1]), replaceChar_cons, if_neg h2]
  have hb : (c == '\r') = false := by simp [h2]
  rw [hb]

theorem lastTrim_cons {x : List Char} {P : List (List Char)} (h : P ≠ []) :
    lastTrim (x :: P) = x :: lastTrim P := by
  unfold lastTrim
  cases P with
  | nil => cases h rfl
  | cons a as =>
      rw [List.getLast?_cons_cons]
      split
      · rw [List.dropLast_cons₂]
      · rfl

theorem splitChar_ne_nil (sep : Char) (l : List Char) : splitChar sep l ≠ [] :=
  splitP_ne_nil _ _

theorem splitLines_nil : splitLines [] = [] := by decide

theorem splitLines_cons_nl (l : List Char) : splitLines ('\n' :: l) = [] :: splitLines l := by
  rw [splitLines_def, splitLines_def, nlNorm_cons_nl, splitChar_cons_sep,
    lastTrim_cons (splitChar_ne_nil _ _)]

theorem splitLines_crnl (l : List Char) :
    splitLines ('\r' :: '\n' :: l) = [] :: splitLines l := by
  rw [splitLines_def, splitLines_def, nlNorm_crnl, splitChar_cons_sep,
    lastTrim_cons (splitChar_ne_nil _ _)]

theorem splitLines_cr_one : splitLines ['\r'] = [[]] := by decide

theorem splitLines_cr_cons {c : Char} (h : c ≠ '\n') (l : List Char) :
    splitLines ('\r' :: c :: l) = [] :: splitLines (c :: l) := by
  rw [splitLines_def, splitLines_def, nlNorm_cr_cons h, splitChar_cons_sep,
    lastTrim_cons (splitChar_ne_nil _ _)]

theorem splitLines_cons_other {c : Char} (h1 : c ≠ '\n') (h2 : c ≠ '\r') (l : List Char) :
    splitLines (c :: l) = (c :: (splitLines l).headI) :: (splitLines l).tail := by
  rw [splitLines_def, splitLines_def, nlNorm_cons_other h1 h2]
  unfold splitChar
  rw [splitP_cons_not (by simp [h1])]
  cases hP : splitP (fun x => x == '\n') (nlNorm l) with
  | nil => exact absurd hP (splitP_ne_nil _ _)
  | cons a as =>
      cases as with
      | nil =>
          by_cases ha : a = []
          · subst ha
            simp [lastTrim]
            rfl
          · unfold lastTrim
            simp [ha]
      | cons b bs =>
          rw [show ((a :: b :: bs).headI) = a from rfl, show ((a :: b :: bs).tail) = b :: bs from rfl]
          unfold lastTrim
          rw [List.getLast?_cons_cons, List.getLast?_cons_cons]
          split
          · rw [List.dropLast_cons₂, List.dropLast_cons₂]
            cases bs with
            | nil => simp
            | cons b2 bs2 => rw [List.dropLast_cons₂]; rfl
          · rfl

theorem splitLines_eq_nil_iff {l : List Char} : splitLines l = [] ↔ l = [] := by
  constructor
  · intro h
    by_contra hne
    cases l with
    | nil => exact hne rfl
    | cons c t =>
        by_cases h1 : c = '\n'
        · subst h1; rw [splitLines_cons_nl] at h; cases h
        · by_cases h2 : c = '\r'
          · subst h2
            cases t with
            | nil => rw [splitLines_cr_one] at h; cases h
            | cons c2 t2 =>
                by_cases h3 : c2 = '\n'
                · subst h3; rw [splitLines_crnl] at h; cases h
                · rw [splitLines_cr_cons h3] at h; cases h
          · rw [splitLines_cons_other h1 h2] at h; cases h
  · rintro rfl; exact splitLines_nil

theorem mem_lastTrim {P : List (List Char)} {x : List Char} (h : x ∈ lastTrim P) :
    x ∈ P := by
  unfold lastTrim at h
  split at h
  · exact List.dropLast_subset P h
  · exact h

theorem mem_splitLines {l : List Char} :
    ∀ {x : List Char}, x ∈ splitLines l → ∀ c ∈ x, c ∈ l := by
  intro x hx c hc
  rw [splitLines_def] at hx
  have hx2 := mem_lastTrim hx
  have hm := mem_splitP hx2 c hc
  have hnl : c ≠ '\n' := by simpa using hm.2
  rcases mem_replaceChar hm.1 with rfl | ⟨hmem, _⟩
  · exact absurd rfl hnl
  · exact mem_dropNlAfterCr hmem

theorem dropNlAfterCr_append_clean {a : List Char}
    (h : ∀ c ∈ a, c ≠ '\n' ∧ c ≠ '\r') (z : List Char) :
    dropNlAfterCr false (a ++ z) = a ++ dropNlAfterCr false z := by
  induction a with
  | nil => rfl
  | cons c t ih =>
      have hc := h c (List.mem_cons_self c t)
      rw [List.cons_append, dropNlAfterCr_cons, if_neg (by simp),
        show (c == '\r') = false from by simp [hc.2],
        ih (fun x hx => h x (List.mem_cons_of_mem c hx))]
      rfl

theorem nlNorm_append_clean {a : List Char}
    (h : ∀ c ∈ a, c ≠ '\n' ∧ c ≠ '\r') (z : List Char) :
    nlNorm (a ++ z) = a ++ nlNorm z := by
  unfold nlNorm
  rw [dropNlAfterCr_append_clean h, replaceChar_append,
    replaceChar_eq_self '\n' (fun hm => (h '\r' hm).2 rfl)]

theorem splitLines_append_cons {a : List Char} (h1 : '\n' ∉ a) (h2 : '\r' ∉ a)
    (b : List Char) : splitLines (a ++ '\n' :: b) = a :: splitLines b := by
  have hclean : ∀ c ∈ a, c ≠ '\n' ∧ c ≠ '\r' :=
    fun c hc => ⟨fun he => h1 (he ▸ hc), fun he => h2 (he ▸ hc)⟩
  rw [splitLines_def, splitLines_def]
  rw [show a ++ '\n' :: b = a ++ ('\n' :: b) from rfl]
  rw [nlNorm_append_clean hclean, nlNorm_cons_nl]
  rw [show a ++ '\n' :: nlNorm b = a ++ '\n' :: nlNorm b from rfl]
  unfold splitChar
  rw [splitP_append_sep (by simp) a (nlNorm b)]
  rw [splitP_of_all_not (fun c hc => by simp [(hclean c hc).1])]
  rw [List.singleton_append]
  rw [lastTrim_cons (splitP_ne_nil _ _)]

theorem splitLines_of_no_breaks {l : List Char} (h1 : '\n' ∉ l) (h2 : '\r' ∉ l)
    (hne : l ≠ []) : splitLines l = [l] := by
  have hclean : ∀ c ∈ l, c ≠ '\n' ∧ c ≠ '\r' :=
    fun c hc => ⟨fun he => h1 (he ▸ hc), fun he => h2 (he ▸ hc)⟩
  rw [splitLines_def]
  rw [show nlNorm l = l from by
    have := nlNorm_append_clean hclean []
    simpa [nlNorm_nil] using this]
  unfold splitChar
  rw [splitP_of_all_not (fun c hc => by simp [(hclean c hc).1])]
  unfold lastTrim
  rw [show ([l] : List (List Char)).getLast? = some l from rfl]
  rw [if_neg (by simp [hne])]

theorem splitLines_join {L : List (List Char)}
    (h : ∀ p ∈ L, p ≠ [] ∧ '\n' ∉ p ∧ '\r' ∉ p) :
    splitLines (joinSep ['\n'] L) = L := by
  induction L with
  | nil => exact splitLines_nil
  | cons x xs ih =>
      cases xs with
      | nil =>
          have hx := h x (List.mem_cons_self x [])
          exact splitLines_of_no_breaks hx.2.1 hx.2.2 hx.1
      | cons y ys =>
          have hx := h x (List.mem_cons_self x (y :: ys))
          rw [joinSep_cons ['\n'] x (List.cons_ne_nil y ys), List.append_assoc,
            List.singleton_append, splitLines_append_cons hx.2.1 hx.2.2,
            ih (fun p hp => h p (List.mem_cons_of_mem x hp))]

/-! ## Digit arithmetic -/

theorem digitsVal_foldl_from (a : Nat) (l : List Char) :
    l.foldl (fun a c => a * 10 + (c.toNat - 48)) a = a * 10 ^ l.length + digitsVal l := by
  induction l generalizing a with
  | nil => simp [digitsVal]
  | cons c t ih =>
      rw [List.foldl_cons]
      rw [ih (a * 10 + (c.toNat - 48))]
      have h2 : digitsVal (c :: t) = (c.toNat - 48) * 10 ^ t.length + digitsVal t := by
        have h3 : digitsVal (c :: t)
            = List.foldl (fun a c => a * 10 + (c.toNat - 48)) (0 * 10 + (c.toNat - 48)) t := rfl
        rw [h3, ih (0 * 10 + (c.toNat - 48))]
        ring
      rw [h2, List.length_cons]
      ring

theorem digitsVal_append (l1 l2 : List Char) :
    digitsVal (l1 ++ l2) = digitsVal l1 * 10 ^ l2.length + digitsVal l2 := by
  unfold digitsVal
  rw [List.foldl_append]
  exact digitsVal_foldl_from _ l2

theorem digitsVal_replicate_zero (j : Nat) : digitsVal (List.replicate j '0') = 0 := by
  induction j with
  | zero => rfl
  | succ j ih =>
      unfold digitsVal at ih ⊢
      rw [List.replicate_succ, List.foldl_cons]
      simpa using ih

theorem toNat_digitChar {d : Nat} (h : d < 10) : (Char.ofNat (48 + d)).toNat = 48 + d := by
  interval_cases d <;> decide

theorem isDigit_digitChar {d : Nat} (h : d < 10) : (Char.ofNat (48 + d)).isDigit = true := by
  interval_cases d <;> decide

theorem digitsVal_reverse_map {L : List Nat} (h : ∀ d ∈ L, d < 10) :
    digitsVal (L.reverse.map (fun d => Char.ofNat (48 + d))) = Nat.ofDigits 10 L := by
  induction L with
  | nil => rfl
  | cons d t ih =>
      rw [List.reverse_cons, List.map_append, digitsVal_append, Nat.ofDigits_cons,
        ih (fun e he => h e (List.mem_cons_of_mem d he))]
      have hd : digitsVal [Char.ofNat (48 + d)] = d := by
        unfold digitsVal
        rw [List.foldl_cons]
        simp [toNat_digitChar (h d (List.mem_cons_self d t))]
      simp only [List.map_cons, List.map_nil, hd]
      simp
      ring

theorem digitsVal_reprNat (n : Nat) : digitsVal (reprNat n) = n := by
  unfold reprNat
  by_cases h : n = 0
  · subst h
    decide
  · rw [if_neg h, digitsVal_reverse_map (fun d hd => Nat.digits_lt_base (by norm_num) hd),
      Nat.ofDigits_digits]

theorem reprNat_all_digits (n : Nat) : ∀ c ∈ reprNat n, c.isDigit = true := by
  by_cases h : n = 0
  · subst h
    intro c hc
    rw [show reprNat 0 = ['0'] from rfl, List.mem_singleton] at hc
    subst hc
    decide
  · unfold reprNat
    rw [if_neg h]
    intro c hc
    rw [List.mem_map] at hc
    obtain ⟨d, hd, hdc⟩ := hc
    rw [← hdc]
    exact isDigit_digitChar (Nat.digits_lt_base (by norm_num) (List.mem_reverse.mp hd))

theorem reprNat_ne_nil (n : Nat) : reprNat n ≠ [] := by
  unfold reprNat
  by_cases h : n = 0
  · simp [h]
  · rw [if_neg h]
    simp [Nat.digits_ne_nil_iff_ne_zero.mpr h]

theorem isDigit_ne {c d : Char} (h : c.isDigit = true) (hd : d.isDigit = false) : c ≠ d := by
  rintro rfl
  rw [h] at hd
  cases hd

theorem space_not_digit {c : Char} (h : isSpaceChar c = true) : c.isDigit = false := by
  unfold isSpaceChar at h
  simp only [Bool.or_eq_true, beq_iff_eq] at h
  rcases h with ((((h | h) | h) | h) | h) | h <;> subst h <;> decide

theorem isDigit_not_space {c : Char} (h : c.isDigit = true) : isSpaceChar c = false := by
  by_contra hs
  simp only [Bool.not_eq_false] at hs
  have := space_not_digit hs
  rw [h] at this
  cases this

theorem allDigits_of (l : List Char) (hne : l ≠ []) (h : ∀ c ∈ l, c.isDigit = true) :
    allDigits l = true := by
  unfold allDigits
  rw [Bool.and_eq_true]
  constructor
  · simpa using hne
  · rw [List.all_eq_true]
    simpa using h

theorem allDigits_reprNat (n : Nat) : allDigits (reprNat n) = true :=
  allDigits_of _ (reprNat_ne_nil n) (reprNat_all_digits n)

theorem pyStrip_reprNat (n : Nat) : pyStrip (reprNat n) = reprNat n :=
  pyStrip_eq_self_of_no_space (fun c hc => isDigit_not_space (reprNat_all_digits n c hc))

theorem pyInt_of_strip_nil {v : List Char} (h : pyStrip v = []) : pyInt v = none := by
  unfold pyInt
  rw [h]

theorem pyInt_of_strip_cons {v : List Char} {c : Char} {r : List Char}
    (h : pyStrip v = c :: r) :
    pyInt v =
      if c = '+' then (if allDigits r then some ((digitsVal r : Nat) : Int) else none)
      else if c = '-' then (if allDigits r then some (-(digitsVal r : Nat) : Int) else none)
      else (if allDigits (c :: r) then some ((digitsVal (c :: r) : Nat) : Int) else none) := by
  unfold pyInt
  rw [h]

theorem pyInt_reprNat (n : Nat) : pyInt (reprNat n) = some (n : Int) := by
  cases hr : reprNat n with
  | nil => exact absurd hr (reprNat_ne_nil n)
  | cons c r =>
      have hst : pyStrip (c :: r) = c :: r := by rw [← hr]; exact pyStrip_reprNat n
      have hcd : c.isDigit = true :=
        reprNat_all_digits n c (by rw [hr]; exact List.mem_cons_self c r)
      rw [pyInt_of_strip_cons hst, if_neg (isDigit_ne hcd (by decide)),
        if_neg (isDigit_ne hcd (by decide)),
        if_pos (by rw [← hr]; exact allDigits_reprNat n)]
      rw [show digitsVal (c :: r) = n from by rw [← hr]; exact digitsVal_reprNat n]

theorem pyInt_reprInt (i : Int) : pyInt (reprInt i) = some i := by
  unfold reprInt
  by_cases h : i < 0
  · rw [if_pos h]
    have hns : ∀ c ∈ '-' :: reprNat i.natAbs, isSpaceChar c = false := by
      intro c hc
      rcases List.mem_cons.mp hc with rfl | hc2
      · decide
      · exact isDigit_not_space (reprNat_all_digits _ c hc2)
    rw [pyInt_of_strip_cons (pyStrip_eq_self_of_no_space hns)]
    rw [if_neg (by decide), if_pos rfl, if_pos (allDigits_reprNat i.natAbs)]
    rw [digitsVal_reprNat]
    congr 1
    omega
  · rw [if_neg h]
    rw [pyInt_reprNat]
    congr 1
    omega

/-! ## factorCount and denominators dividing powers of 10 -/

theorem factorCount_of_not_dvd {p n : Nat} (h : ¬ p ∣ n) : factorCount p n = 0 := by
  rw [factorCount, dif_neg]
  rintro ⟨h1, h2, h3⟩
  exact h h3

theorem factorCount_pow_mul {p : Nat} (hp : 2 ≤ p) {m : Nat} (hm : 0 < m)
    (hnd : ¬ p ∣ m) : ∀ a, factorCount p (p ^ a * m) = a := by
  intro a
  induction a with
  | zero => simpa using factorCount_of_not_dvd hnd
  | succ a ih =>
      have hp0 : 0 < p := by omega
      rw [factorCount, dif_pos ⟨hp, Nat.mul_pos (pow_pos hp0 (a + 1)) hm,
        ⟨p ^ a * m, by ring⟩⟩]
      rw [show p ^ (a + 1) * m / p = p ^ a * m from by
        rw [pow_succ, mul_comm (p ^ a) p, mul_assoc]
        exact Nat.mul_div_cancel_left _ hp0]
      rw [ih]

theorem pow_factorCount_dvd (p n : Nat) : p ^ factorCount p n ∣ n := by
  induction n using factorCount.induct p with
  | case1 n h ih =>
      rw [factorCount, dif_pos h, pow_succ]
      have hn : n / p * p = n := Nat.div_mul_cancel h.2.2
      calc p ^ factorCount p (n / p) * p ∣ n / p * p := mul_dvd_mul_right ih p
        _ = n := hn
  | case2 n h =>
      rw [factorCount, dif_neg h, pow_zero]
      exact one_dvd n

theorem not_dvd_div_pow_factorCount (p n : Nat) :
    2 ≤ p → 0 < n → ¬ p ∣ n / p ^ factorCount p n := by
  induction n using factorCount.induct p with
  | case1 n h ih =>
      intro hp hn
      rw [factorCount, dif_pos h, pow_succ, mul_comm (p ^ factorCount p (n / p)) p,
        ← Nat.div_div_eq_div_mul]
      exact ih hp (Nat.div_pos (Nat.le_of_dvd h.2.1 h.2.2) (by omega))
  | case2 n h =>
      intro hp hn
      rw [factorCount, dif_neg h, pow_zero, Nat.div_one]
      intro hdvd
      exact h ⟨hp, hn, hdvd⟩

theorem eq_two_pow_mul_five_pow {d : Nat} (hd : 0 < d) {k : Nat} (h : d ∣ 10 ^ k) :
    d = 2 ^ factorCount 2 d * 5 ^ factorCount 5 d := by
  have h2 : 2 ^ factorCount 2 d ∣ d := pow_factorCount_dvd 2 d
  have h5 : 5 ^ factorCount 5 d ∣ d := pow_factorCount_dvd 5 d
  have hbase : Nat.Coprime 2 5 := by decide
  have hcop : Nat.Coprime (2 ^ factorCount 2 d) (5 ^ factorCount 5 d) :=
    Nat.Coprime.pow _ _ hbase
  have hmul : 2 ^ factorCount 2 d * 5 ^ factorCount 5 d ∣ d :=
    hcop.mul_dvd_of_dvd_of_dvd h2 h5
  have h2pos : 0 < 2 ^ factorCount 2 d := pow_pos (by norm_num) _
  have h5pos : 0 < 5 ^ factorCount 5 d := pow_pos (by norm_num) _
  set r := d / (2 ^ factorCount 2 d * 5 ^ factorCount 5 d) with hrdef
  have hr : 2 ^ factorCount 2 d * 5 ^ factorCount 5 d * r = d := Nat.mul_div_cancel' hmul
  have heq2 : d = 5 ^ factorCount 5 d * r * 2 ^ factorCount 2 d := by
    conv_lhs => rw [← hr]
    ring
  have hd2a : d / 2 ^ factorCount 2 d = 5 ^ factorCount 5 d * r :=
    Nat.div_eq_of_eq_mul_left h2pos heq2
  have heq5 : d = 2 ^ factorCount 2 d * r * 5 ^ factorCount 5 d := by
    conv_lhs => rw [← hr]
    ring
  have hd5b : d / 5 ^ factorCount 5 d = 2 ^ factorCount 2 d * r :=
    Nat.div_eq_of_eq_mul_left h5pos heq5
  have hr2 : ¬ 2 ∣ r := by
    intro hdvd
    apply not_dvd_div_pow_factorCount 2 d (by omega) hd
    rw [hd2a]
    exact Dvd.dvd.mul_left hdvd _
  have hr5 : ¬ 5 ∣ r := by
    intro hdvd
    apply not_dvd_div_pow_factorCount 5 d (by omega) hd
    rw [hd5b]
    exact Dvd.dvd.mul_left hdvd _
  have hrd : r ∣ d := ⟨2 ^ factorCount 2 d * 5 ^ factorCount 5 d, by
    conv_lhs => rw [← hr]
    ring⟩
  have hr10 : r ∣ 10 ^ k := dvd_trans hrd h
  have hcop2 : Nat.Coprime r 2 :=
    ((Nat.Prime.coprime_iff_not_dvd Nat.prime_two).mpr hr2).symm
  have hcop5 : Nat.Coprime r 5 :=
    ((Nat.Prime.coprime_iff_not_dvd Nat.prime_five).mpr hr5).symm
  have hcop10 : Nat.Coprime r (10 ^ k) := by
    have hc10 : Nat.Coprime r 10 := by
      have h10 : (10 : Nat) = 2 * 5 := by norm_num
      rw [h10]
      exact Nat.Coprime.mul_right hcop2 hcop5
    exact Nat.Coprime.pow_right k hc10
  have hr1 : r = 1 := Nat.Coprime.eq_one_of_dvd hcop10 hr10
  rw [hr1, mul_one] at hr
  exact hr.symm

theorem den_dvd_pow10_floatK {q : Rat} (hsm : ∃ k, (q.den : Nat) ∣ 10 ^ k) :
    (q.den : Nat) ∣ 10 ^ floatK q := by
  obtain ⟨k, hk⟩ := hsm
  have hd := eq_two_pow_mul_five_pow q.den_pos hk
  unfold floatK
  calc (q.den : Nat)
      = 2 ^ factorCount 2 q.den * 5 ^ factorCount 5 q.den := hd
    _ ∣ 2 ^ max (factorCount 2 q.den) (factorCount 5 q.den)
        * 5 ^ max (factorCount 2 q.den) (factorCount 5 q.den) :=
        mul_dvd_mul (pow_dvd_pow 2 (le_max_left _ _)) (pow_dvd_pow 5 (le_max_right _ _))
    _ = 10 ^ max (factorCount 2 q.den) (factorCount 5 q.den) := by
        rw [← mul_pow]
        norm_num

/-! ## Denominators of parsed floats -/

theorem den_dvd_of_div_nat (a b : Nat) :
    ((((a : Nat) : Rat) / ((b : Nat) : Rat)).den : Nat) ∣ b := by
  have h := Rat.den_dvd (a : Int) (b : Int)
  rw [Rat.divInt_eq_div] at h
  have hcast : (((a : Int) : Rat) / ((b : Int) : Rat)) = ((a : Rat) / (b : Rat)) := by
    push_cast
    rfl
  rw [hcast] at h
  exact_mod_cast h

theorem ratPow10_zero : ratPow10 0 = 1 := by
  unfold ratPow10
  norm_num

theorem ratOfParts_smooth (m f : Nat) (e : Int) :
    ∃ k : Nat, (((ratOfParts m f e).den : Nat)) ∣ 10 ^ k := by
  unfold ratOfParts ratPow10
  by_cases he : 0 ≤ e
  · rw [if_pos he]
    refine ⟨f, ?_⟩
    have hv : (m : Rat) / ((10 ^ f : Nat) : Rat) * ((10 ^ e.toNat : Nat) : Rat)
        = ((m * 10 ^ e.toNat : Nat) : Rat) / ((10 ^ f : Nat) : Rat) := by
      push_cast
      ring
    rw [hv]
    exact den_dvd_of_div_nat _ _
  · rw [if_neg he]
    refine ⟨f + (-e).toNat, ?_⟩
    have hv : (m : Rat) / ((10 ^ f : Nat) : Rat) * (1 / ((10 ^ (-e).toNat : Nat) : Rat))
        = ((m : Nat) : Rat) / ((10 ^ (f + (-e).toNat) : Nat) : Rat) := by
      push_cast
      rw [pow_add]
      ring
    rw [hv]
    exact den_dvd_of_div_nat _ _

theorem parseFloatBody_smooth {l : List Char} {q : Rat} (h : parseFloatBody l = some q) :
    ∃ k, (q.den : Nat) ∣ 10 ^ k := by
  unfold parseFloatBody at h
  split at h
  · split at h
    · cases h
    · rw [Option.map_eq_some'] at h
      obtain ⟨e, he, hq⟩ := h
      rw [← hq]
      exact ratOfParts_smooth _ _ _
  · split at h
    · cases h
    · rw [Option.map_eq_some'] at h
      obtain ⟨e, he, hq⟩ := h
      rw [← hq]
      exact ratOfParts_smooth _ _ _

theorem pyFloat_of_strip_nil {v : List Char} (h : pyStrip v = []) : pyFloat v = none := by
  unfold pyFloat
  rw [h]

theorem pyFloat_of_strip_cons {v : List Char} {c : Char} {r : List Char}
    (h : pyStrip v = c :: r) :
    pyFloat v =
      if c = '+' then parseFloatBody r
      else if c = '-' then (parseFloatBody r).map Neg.neg
      else parseFloatBody (c :: r) := by
  unfold pyFloat
  rw [h]

theorem pyFloat_smooth {v : List Char} {q : Rat} (h : pyFloat v = some q) :
    ∃ k, (q.den : Nat) ∣ 10 ^ k := by
  cases hs : pyStrip v with
  | nil => rw [pyFloat_of_strip_nil hs] at h; cases h
  | cons c r =>
      rw [pyFloat_of_strip_cons hs] at h
      split at h
      · exact parseFloatBody_smooth h
      · split at h
        · rw [Option.map_eq_some'] at h
          obtain ⟨q0, hq0, hqq⟩ := h
          obtain ⟨k, hk⟩ := parseFloatBody_smooth hq0
          refine ⟨k, ?_⟩
          rw [← hqq]
          simpa using hk
        · exact parseFloatBody_smooth h

/-! ## Parsing a serialized decimal -/

theorem takeWhile_dropWhile_append {p : Char → Bool} {a : List Char}
    (ha : ∀ c ∈ a, p c = true) {c : Char} (hc : p c = false) (b : List Char) :
    (a ++ c :: b).takeWhile p = a ∧ (a ++ c :: b).dropWhile p = c :: b := by
  induction a with
  | nil =>
      rw [List.nil_append]
      exact ⟨by simp [List.takeWhile_cons, hc], by simp [List.dropWhile_cons, hc]⟩
  | cons d t ih =>
      have hd := ha d (List.mem_cons_self d t)
      have iht := ih (fun x hx => ha x (List.mem_cons_of_mem d hx))
      constructor
      · rw [List.cons_append, List.takeWhile_cons, hd]
        simp [iht.1]
      · rw [List.cons_append, List.dropWhile_cons, hd]
        simp [iht.2]

theorem takeWhile_eq_self_of {p : Char → Bool} {l : List Char}
    (h : ∀ c ∈ l, p c = true) : l.takeWhile p = l := by
  have h2 : l.dropWhile p = [] := List.dropWhile_eq_nil_iff.mpr (by simpa using h)
  have h3 := List.takeWhile_append_dropWhile p l
  rw [h2, List.append_nil] at h3
  exact h3

theorem parseFloatBody_digits {ip fp : List Char} (hip : ∀ c ∈ ip, c.isDigit = true)
    (hipne : ip ≠ []) (hfp : ∀ c ∈ fp, c.isDigit = true) :
    parseFloatBody (ip ++ '.' :: fp)
      = some (((digitsVal (ip ++ fp) : Nat) : Rat) / ((10 ^ fp.length : Nat) : Rat)) := by
  have h1 := takeWhile_dropWhile_append hip (c := '.') (by decide) fp
  unfold parseFloatBody
  rw [h1.1, h1.2]
  simp only [List.head?_cons, List.tail_cons]
  rw [if_pos trivial]
  rw [takeWhile_eq_self_of hfp]
  rw [if_neg (by simp [hipne])]
  rw [show fp.dropWhile Char.isDigit = [] from
    List.dropWhile_eq_nil_iff.mpr (by simpa using hfp)]
  rw [show parseExpPart [] = some 0 from rfl]
  rw [Option.map_some']
  unfold ratOfParts
  rw [ratPow10_zero, mul_one]

/-! ## Digits of `reprFloat` -/

theorem floatDs_all_digits (q : Rat) : ∀ c ∈ floatDs q, c.isDigit = true := by
  intro c hc
  unfold floatDs at hc
  rcases List.mem_append.mp hc with hrep | hrn
  · rw [List.eq_of_mem_replicate hrep]
    decide
  · exact reprNat_all_digits _ c hrn

theorem floatDs_length (q : Rat) : floatK q + 1 ≤ (floatDs q).length := by
  unfold floatDs
  rw [List.length_append, List.length_replicate]
  omega

theorem digitsVal_floatDs (q : Rat) : digitsVal (floatDs q) = floatM q := by
  unfold floatDs
  rw [digitsVal_append, digitsVal_replicate_zero, digitsVal_reprNat]
  simp

theorem floatIp_length (q : Rat) :
    (floatIp q).length = (floatDs q).length - floatK q := by
  unfold floatIp
  rw [List.length_take]
  have := floatDs_length q
  omega

theorem floatIp_ne_nil (q : Rat) : floatIp q ≠ [] := by
  have h2 : 0 < (floatIp q).length := by
    rw [floatIp_length]
    have := floatDs_length q
    omega
  exact List.ne_nil_of_length_pos h2

theorem floatIp_all_digits (q : Rat) : ∀ c ∈ floatIp q, c.isDigit = true :=
  fun c hc => floatDs_all_digits q c (List.take_subset _ _ hc)

theorem floatFp_ne_nil (q : Rat) : floatFp q ≠ [] := by
  unfold floatFp
  split
  · simp
  · assumption

theorem floatFp_all_digits (q : Rat) : ∀ c ∈ floatFp q, c.isDigit = true := by
  unfold floatFp
  split
  · intro c hc
    rw [List.mem_singleton] at hc
    subst hc
    decide
  · intro c hc
    exact floatDs_all_digits q c (List.drop_subset _ _ hc)

theorem floatVal (q : Rat) (hsm : ∃ k, (q.den : Nat) ∣ 10 ^ k) :
    ((digitsVal (floatIp q ++ floatFp q) : Nat) : Rat) / ((10 ^ (floatFp q).length : Nat) : Rat)
      = ((q.num.natAbs : Nat) : Rat) / ((q.den : Nat) : Rat) := by
  have hdvd := den_dvd_pow10_floatK hsm
  have hm : floatM q * q.den = q.num.natAbs * 10 ^ floatK q := by
    unfold floatM
    exact Nat.div_mul_cancel (Dvd.dvd.mul_left hdvd _)
  have hL := floatDs_length q
  have hdroplen : ((floatDs q).drop ((floatDs q).length - floatK q)).length = floatK q := by
    rw [List.length_drop]
    omega
  by_cases hK : floatK q = 0
  · have hdrop : (floatDs q).drop ((floatDs q).length - floatK q) = [] := by
      rw [hK, Nat.sub_zero, List.drop_length]
    have hip : floatIp q = floatDs q := by
      unfold floatIp
      rw [hK, Nat.sub_zero, List.take_length]
    have hfp : floatFp q = ['0'] := by
      unfold floatFp
      rw [if_pos hdrop]
    have hden1 : q.den = 1 := by
      rw [hK, pow_zero] at hdvd
      exact Nat.dvd_one.mp hdvd
    rw [hip, hfp]
    rw [digitsVal_append, digitsVal_floatDs]
    rw [hK, pow_zero, mul_one, hden1] at hm
    rw [show digitsVal ['0'] = 0 from rfl]
    rw [show (['0'] : List Char).length = 1 from rfl]
    rw [hden1, ← hm]
    push_cast
    field_simp
  · have hdropne : (floatDs q).drop ((floatDs q).length - floatK q) ≠ [] := by
      intro he
      rw [he] at hdroplen
      exact hK hdroplen.symm
    have hfp : floatFp q = (floatDs q).drop ((floatDs q).length - floatK q) := by
      unfold floatFp
      rw [if_neg hdropne]
    have hipfp : floatIp q ++ floatFp q = floatDs q := by
      rw [hfp]
      exact List.take_append_drop _ _
    rw [hipfp, digitsVal_floatDs, hfp, hdroplen]
    have hden0 : ((q.den : Nat) : Rat) ≠ 0 := by
      have := q.den_pos
      positivity
    rw [div_eq_div_iff (by positivity) hden0]
    exact_mod_cast hm

theorem body_no_space (q : Rat) :
    ∀ c ∈ floatIp q ++ '.' :: floatFp q, isSpaceChar c = false := by
  intro c hc
  rcases List.mem_append.mp hc with hc1 | hc2
  · exact isDigit_not_space (floatIp_all_digits q c hc1)
  · rcases List.mem_cons.mp hc2 with rfl | hc3
    · decide
    · exact isDigit_not_space (floatFp_all_digits q c hc3)

theorem abs_div_den (q : Rat) :
    ((q.num.natAbs : Nat) : Rat) / ((q.den : Nat) : Rat) = if q.num < 0 then -q else q := by
  have hcast : ((q.num.natAbs : Nat) : Rat) = |((q.num : Int) : Rat)| := by
    push_cast [Int.cast_natAbs]
    rfl
  have hq : ((q.num : Int) : Rat) / ((q.den : Nat) : Rat) = q := by
    exact_mod_cast Rat.num_div_den q
  by_cases hn : q.num < 0
  · rw [if_pos hn, hcast, abs_of_neg (by exact_mod_cast hn), neg_div, hq]
  · rw [if_neg hn, hcast, abs_of_nonneg (by exact_mod_cast not_lt.mp hn), hq]

theorem pyFloat_reprFloat {q : Rat} (hsm : ∃ k, (q.den : Nat) ∣ 10 ^ k) :
    pyFloat (reprFloat q) = some q := by
  have hbody := parseFloatBody_digits (floatIp_all_digits q) (floatIp_ne_nil q)
    (floatFp_all_digits q)
  have hval := floatVal q hsm
  have habs := abs_div_den q
  unfold reprFloat
  by_cases hn : q.num < 0
  · rw [if_pos hn]
    have hns : ∀ c ∈ '-' :: (floatIp q ++ '.' :: floatFp q), isSpaceChar c = false := by
      intro c hc
      rcases List.mem_cons.mp hc with rfl | hc2
      · decide
      · exact body_no_space q c hc2
    rw [pyFloat_of_strip_cons (pyStrip_eq_self_of_no_space hns)]
    rw [if_neg (by decide), if_pos rfl]
    rw [hbody, Option.map_some']
    rw [hval, habs, if_pos hn]
    rw [neg_neg]
  · rw [if_neg hn]
    cases hip : floatIp q with
    | nil => exact absurd hip (floatIp_ne_nil q)
    | cons c r =>
        have hcd : c.isDigit = true :=
          floatIp_all_digits q c (by rw [hip]; exact List.mem_cons_self c r)
        have hns : ∀ x ∈ c :: (r ++ '.' :: floatFp q), isSpaceChar x = false := by
          rw [← List.cons_append, ← hip]
          exact body_no_space q
        rw [List.cons_append]
        rw [pyFloat_of_strip_cons (pyStrip_eq_self_of_no_space hns)]
        rw [if_neg (isDigit_ne hcd (by decide)), if_neg (isDigit_ne hcd (by decide))]
        rw [← List.cons_append, ← hip, hbody, hval, habs, if_neg hn]

theorem allDigits_false_of_mem {l : List Char} {c : Char} (hc : c ∈ l)
    (h : c.isDigit = false) : allDigits l = false := by
  by_contra hne
  have ht : allDigits l = true := by simpa using hne
  unfold allDigits at ht
  rw [Bool.and_eq_true, List.all_eq_true] at ht
  have h2 := ht.2 c hc
  rw [h] at h2
  cases h2

theorem pyInt_reprFloat (q : Rat) : pyInt (reprFloat q) = none := by
  have hdot : '.' ∈ floatIp q ++ '.' :: floatFp q :=
    List.mem_append.mpr (Or.inr (List.mem_cons_self _ _))
  have hbad : allDigits (floatIp q ++ '.' :: floatFp q) = false :=
    allDigits_false_of_mem hdot (by decide)
  unfold reprFloat
  by_cases hn : q.num < 0
  · rw [if_pos hn]
    have hns : ∀ c ∈ '-' :: (floatIp q ++ '.' :: floatFp q), isSpaceChar c = false := by
      intro c hc
      rcases List.mem_cons.mp hc with rfl | hc2
      · decide
      · exact body_no_space q c hc2
    rw [pyInt_of_strip_cons (pyStrip_eq_self_of_no_space hns)]
    rw [if_neg (by decide), if_pos rfl, hbad]
    rfl
  · rw [if_neg hn]
    cases hip : floatIp q with
    | nil => exact absurd hip (floatIp_ne_nil q)
    | cons c r =>
        have hcd : c.isDigit = true :=
          floatIp_all_digits q c (by rw [hip]; exact List.mem_cons_self c r)
        have hns : ∀ x ∈ c :: (r ++ '.' :: floatFp q), isSpaceChar x = false := by
          rw [← List.cons_append, ← hip]
          exact body_no_space q
        rw [List.cons_append]
        rw [pyInt_of_strip_cons (pyStrip_eq_self_of_no_space hns)]
        rw [if_neg (isDigit_ne hcd (by decide)), if_neg (isDigit_ne hcd (by decide))]
        rw [← List.cons_append, ← hip, hbad]
        rfl

/-! ## Characterizing the parser loops as filterMaps -/

theorem kvlist_eq_filterMap (s : List Char) (kv_sep item_sep : Char) (crew_hint : Bool) :
    kvlist_to_json s kv_sep item_sep crew_hint =
      if pyStrip s = [] then []
      else (((splitChar item_sep (replaceChar '\n' item_sep s)).map pyStrip).filter
          (· ≠ [])).filterMap
        (fun it => if kv_sep ∈ it then some (kvItemRec kv_sep crew_hint it) else none) := by
  unfold kvlist_to_json
  split
  · rfl
  · simpa using foldl_if_append (fun it => kv_sep ∈ it) (kvItemRec kv_sep crew_hint) _ []

theorem qty_eq_filterMap (s : List Char) :
    qty_to_json s =
      if pyStrip s = [] then []
      else (((splitLines s).map pyStrip).filter (· ≠ [])).filterMap
        (fun line => if ':' ∈ line then some (qtyLineRec line) else none) := by
  unfold qty_to_json
  split
  · rfl
  · simpa using foldl_if_append (fun line => (':' : Char) ∈ line) qtyLineRec _ []

theorem filterMap_clean {β : Type} (f : List Char → Option β) (l : List (List Char)) :
    ((l.map pyStrip).filter (· ≠ [])).filterMap f
      = l.filterMap (fun p => if pyStrip p = [] then none else f (pyStrip p)) := by
  induction l with
  | nil => rfl
  | cons p t ih =>
      rw [List.map_cons, List.filterMap_cons]
      by_cases hp : pyStrip p = []
      · rw [if_pos hp, List.filter_cons_of_neg (by simp [hp]), ih]
      · rw [if_neg hp, List.filter_cons_of_pos (by simp [hp]), List.filterMap_cons, ih]

theorem filterMap_congr_mem {α β : Type} {f g : α → Option β} {l : List α}
    (h : ∀ a ∈ l, f a = g a) : l.filterMap f = l.filterMap g := by
  induction l with
  | nil => rfl
  | cons a t ih =>
      rw [List.filterMap_cons, List.filterMap_cons, h a (List.mem_cons_self a t),
        ih (fun x hx => h x (List.mem_cons_of_mem a hx))]

/-! ## Trimming an item before splitting on the first separator -/

theorem pyStrip_dropWhile (l : List Char) :
    pyStrip (l.dropWhile isSpaceChar) = pyStrip l := by
  unfold pyStrip
  rw [dropWhile_idem]

theorem splitFirst_dropWhile (sep : Char) (hsp : isSpaceChar sep = false) (p : List Char) :
    pyStrip (splitFirst sep (p.dropWhile isSpaceChar)).1 = pyStrip (splitFirst sep p).1 ∧
    pyStrip (splitFirst sep (p.dropWhile isSpaceChar)).2 = pyStrip (splitFirst sep p).2 := by
  induction p with
  | nil => exact ⟨rfl, rfl⟩
  | cons c t ih =>
      by_cases sc : isSpaceChar c
      · have hcs : c ≠ sep := by
          rintro rfl
          rw [hsp] at sc
          cases sc
        rw [List.dropWhile_cons, if_pos sc]
        rw [show splitFirst sep (c :: t) = (c :: (splitFirst sep t).1, (splitFirst sep t).2)
          from by rw [splitFirst, if_neg hcs]]
        refine ⟨?_, ih.2⟩
        rw [ih.1, pyStrip_cons_space (by simpa using sc)]
      · rw [List.dropWhile_cons, if_neg sc]
        exact ⟨rfl, rfl⟩

theorem splitFirst_stripEnd (sep : Char) (hsp : isSpaceChar sep = false) (p : List Char)
    (hp : sep ∈ p) :
    pyStrip (splitFirst sep (stripEnd p)).1 = pyStrip (splitFirst sep p).1 ∧
    pyStrip (splitFirst sep (stripEnd p)).2 = pyStrip (splitFirst sep p).2 := by
  induction p using List.reverseRecOn with
  | nil => cases hp
  | append_singleton q c ih =>
      by_cases sc : isSpaceChar c
      · have hcs : c ≠ sep := by
          rintro rfl
          rw [hsp] at sc
          cases sc
        have hq : sep ∈ q := by
          rcases List.mem_append.mp hp with h1 | h2
          · exact h1
          · rw [List.mem_singleton] at h2
            exact absurd h2.symm hcs
        rw [stripEnd_append_space (by simpa using sc)]
        rw [splitFirst_append_of_mem hq]
        refine ⟨(ih hq).1, ?_⟩
        rw [(ih hq).2, pyStrip_append_space (by simpa using sc)]
      · rw [stripEnd_append_not_space (by simpa using sc)]
        exact ⟨rfl, rfl⟩

theorem splitFirst_pyStrip (sep : Char) (hsp : isSpaceChar sep = false) (p : List Char)
    (hp : sep ∈ p) :
    pyStrip (splitFirst sep (pyStrip p)).1 = pyStrip (splitFirst sep p).1 ∧
    pyStrip (splitFirst sep (pyStrip p)).2 = pyStrip (splitFirst sep p).2 := by
  have hdw : sep ∈ p.dropWhile isSpaceChar := mem_dropWhile_of_not hp hsp
  have h1 := splitFirst_stripEnd sep hsp (p.dropWhile isSpaceChar) hdw
  have h2 := splitFirst_dropWhile sep hsp p
  exact ⟨h1.1.trans h2.1, h1.2.trans h2.2⟩

theorem kvItemRec_strip (kv_sep : Char) (hsp : isSpaceChar kv_sep = false)
    (crew_hint : Bool) (p : List Char) (hp : kv_sep ∈ p) :
    kvItemRec kv_sep crew_hint (pyStrip p) = kvItemRec kv_sep crew_hint p := by
  unfold kvItemRec
  have h := splitFirst_pyStrip kv_sep hsp p hp
  rw [h.1, h.2]

theorem qtyLineRec_strip (line : List Char) (hp : ':' ∈ line) :
    qtyLineRec (pyStrip line) = qtyLineRec line := by
  have h := splitFirst_pyStrip ':' (by decide) line hp
  have hleft : qtyLeft (pyStrip line) = qtyLeft line := h.1
  have hval : qtyVal (pyStrip line) = qtyVal line := h.2
  have hparts : qtyParts (pyStrip line) = qtyParts line := by
    unfold qtyParts
    rw [hleft]
  have hlast : qtyLastTok (pyStrip line) = qtyLastTok line := by
    unfold qtyLastTok
    rw [hparts]
  have hpeel : qtyPeel (pyStrip line) = qtyPeel line := by
    unfold qtyPeel
    rw [hparts, hlast]
  unfold qtyLineRec
  rw [hleft, hval, hparts, hlast, hpeel]

/-! ## Blank input produces nothing -/

theorem clean_split_nil {t : List Char} (sep : Char)
    (h : ∀ c ∈ t, c ≠ sep → isSpaceChar c = true) :
    ((splitChar sep t).map pyStrip).filter (· ≠ []) = [] := by
  rw [List.filter_eq_nil_iff]
  intro x hx
  rw [List.mem_map] at hx
  obtain ⟨p, hpmem, hpx⟩ := hx
  have hxnil : x = [] := by
    rw [← hpx]
    exact pyStrip_eq_nil_iff.mpr (fun c hc => h c (mem_splitChar hpmem c hc).1
      (mem_splitChar hpmem c hc).2)
  simp [hxnil]

theorem clean_lines_nil {s : List Char} (h : ∀ c ∈ s, isSpaceChar c = true) :
    ((splitLines s).map pyStrip).filter (· ≠ []) = [] := by
  rw [List.filter_eq_nil_iff]
  intro x hx
  rw [List.mem_map] at hx
  obtain ⟨p, hpmem, hpx⟩ := hx
  have hxnil : x = [] := by
    rw [← hpx]
    exact pyStrip_eq_nil_iff.mpr (fun c hc => h c (mem_splitLines hpmem c hc))
  simp [hxnil]

theorem mem_of_mem_replace_nl {sep : Char} {s : List Char} {c : Char}
    (hc : c ∈ replaceChar '\n' sep s) (hne : c ≠ sep) : c ∈ s := by
  rcases mem_replaceChar hc with rfl | ⟨hm, _⟩
  · exact absurd rfl hne
  · exact hm

/-! ## The spec-side normalizers (following the spec text) and refinement -/

/-- Modelled on the spec's words for KeyCountParser: split into items on
commas after newlines are normalized to commas; drop items without the
separator; split the rest on the first separator, trim both halves, coerce,
and emit one record whose key field is chosen by the crew flag. -/
def specKeyCountParse (crew_hint : Bool) (s : List Char) : List KVRec :=
  (splitChar ',' (replaceChar '\n' ',' s)).filterMap
    (fun it => if ':' ∈ it then some (kvItemRec ':' crew_hint it) else none)

/-- Modelled on the spec's words for QuantityParser: every non-blank line
containing `:` is split on the first `:`; the last whitespace token of the
left half becomes the unit when it is purely alphabetic and there are at
least two tokens; the value is coerced float-then-string. -/
def specQuantityParse (s : List Char) : List QtyRec :=
  (splitLines s).filterMap
    (fun line => if pyStrip line ≠ [] ∧ ':' ∈ line then some (qtyLineRec line) else none)

theorem kvlist_eq_spec (crew_hint : Bool) (s : List Char) :
    kvlist_to_json s ':' ',' crew_hint = specKeyCountParse crew_hint s := by
  rw [kvlist_eq_filterMap]
  unfold specKeyCountParse
  by_cases hb : pyStrip s = []
  · rw [if_pos hb]
    rw [eq_comm, List.filterMap_eq_nil_iff]
    intro it hit
    rw [if_neg]
    intro hcolon
    have hs := pyStrip_eq_nil_iff.mp hb
    have hm := mem_splitChar hit ':' hcolon
    have hcs : (':' : Char) ∈ s := mem_of_mem_replace_nl hm.1 hm.2
    have := hs ':' hcs
    cases this
  · rw [if_neg hb]
    rw [filterMap_clean]
    apply filterMap_congr_mem
    intro p hp
    by_cases hps : pyStrip p = []
    · rw [if_pos hps, eq_comm]
      rw [if_neg]
      intro hcolon
      have := (pyStrip_eq_nil_iff.mp hps) ':' hcolon
      cases this
    · rw [if_neg hps]
      by_cases hcolon : (':' : Char) ∈ p
      · rw [if_pos ((mem_pyStrip_iff (by decide)).mpr hcolon), if_pos hcolon,
          kvItemRec_strip ':' (by decide) crew_hint p hcolon]
      · rw [if_neg (fun hc => hcolon (mem_of_mem_pyStrip hc)), if_neg hcolon]

theorem qty_eq_spec (s : List Char) : qty_to_json s = specQuantityParse s := by
  rw [qty_eq_filterMap]
  unfold specQuantityParse
  by_cases hb : pyStrip s = []
  · rw [if_pos hb]
    rw [eq_comm, List.filterMap_eq_nil_iff]
    intro line hline
    rw [if_neg]
    rintro ⟨hne, hcolon⟩
    apply hne
    rw [pyStrip_eq_nil_iff]
    intro c hc
    exact (pyStrip_eq_nil_iff.mp hb) c (mem_splitLines hline c hc)
  · rw [if_neg hb]
    rw [filterMap_clean]
    apply filterMap_congr_mem
    intro line hline
    by_cases hps : pyStrip line = []
    · rw [if_pos hps, eq_comm, if_neg]
      rintro ⟨hne, hcolon⟩
      exact hne hps
    · rw [if_neg hps]
      by_cases hcolon : (':' : Char) ∈ line
      · rw [if_pos ((mem_pyStrip_iff (by decide)).mpr hcolon),
          if_pos ⟨hps, hcolon⟩, qtyLineRec_strip line hcolon]
      · rw [if_neg (fun hc => hcolon (mem_of_mem_pyStrip hc)), if_neg]
        rintro ⟨hne, hc⟩
        exact hcolon hc

/-! ## Guard irrelevance for the activities parse -/

theorem actsParse_blank {s : List Char} (h : pyStrip s = []) : actsParse s = [] := by
  unfold actsParse
  rw [clean_split_nil ';'
    (fun c hc hcs => (pyStrip_eq_nil_iff.mp h) c (mem_of_mem_replace_nl hc hcs))]
  rfl

/-! ## Concrete inputs used by the claims -/

def exC2Crew : List Char := "Carpenters:6, Ironworkers:4".data
def exC2NoColon : List Char := "NoColonHere".data
def exC4Qty : List Char := "Concrete CY: 35\nLF curb: 120".data
def exC3QtyLine : List Char := "X: 35".data
def exC10Colon5 : List Char := ":5".data
def exC10ColonQty : List Char := ": 35".data
def exSpace : List Char := " ".data
def exX : List Char := "x".data
def exUrl1 : List Char := "https://bucket/p1.jpg".data
def strCarpenters : List Char := "Carpenters".data
def strIronworkers : List Char := "Ironworkers".data
def strConcrete : List Char := "Concrete".data
def strCY : List Char := "CY".data
def strLF : List Char := "LF".data
def strCurb : List Char := "curb".data

/-! ## Evaluating all-digit float coercions

The kernel cannot reduce `Rat` multiplication, so concrete float values are
computed through these lemmas rather than by `decide`. -/

theorem allDigits_all {l : List Char} (h : allDigits l = true) :
    ∀ c ∈ l, c.isDigit = true := by
  unfold allDigits at h
  rw [Bool.and_eq_true, List.all_eq_true] at h
  intro c hc
  simpa using h.2 c hc

theorem dropWhile_isDigit_of_all {l : List Char} (h : ∀ c ∈ l, c.isDigit = true) :
    l.dropWhile Char.isDigit = [] := by
  rw [List.dropWhile_eq_nil_iff]
  intro x hx
  simpa using h x hx

theorem takeWhile_isDigit_of_all {l : List Char} (h : ∀ c ∈ l, c.isDigit = true) :
    l.takeWhile Char.isDigit = l := by
  have h2 := List.takeWhile_append_dropWhile (p := Char.isDigit) (l := l)
  rw [dropWhile_isDigit_of_all h, List.append_nil] at h2
  exact h2

theorem ratOfParts_nat (m : Nat) : ratOfParts m 0 0 = (m : Rat) := by
  simp [ratOfParts, ratPow10]

theorem parseFloatBody_intDigits (l : List Char) (h : allDigits l = true) :
    parseFloatBody l = some ((digitsVal l : Nat) : Rat) := by
  have hne : l ≠ [] := by
    intro he
    rw [he] at h
    exact absurd h (by decide)
  have hall := allDigits_all h
  unfold parseFloatBody
  rw [dropWhile_isDigit_of_all hall, takeWhile_isDigit_of_all hall]
  rw [if_neg (by simp), if_neg hne]
  rw [show parseExpPart [] = some 0 from rfl, Option.map_some']
  rw [ratOfParts_nat]

theorem pyFloat_digits (l : List Char) (h1 : pyStrip l = l) (h2 : allDigits l = true) :
    pyFloat l = some ((digitsVal l : Nat) : Rat) := by
  have hall := allDigits_all h2
  cases l with
  | nil => exact absurd h2 (by decide)
  | cons c r =>
      have hc : c.isDigit = true := hall c (List.mem_cons_self c r)
      rw [pyFloat_of_strip_cons h1, if_neg (isDigit_ne hc (by decide)),
        if_neg (isDigit_ne hc (by decide))]
      exact parseFloatBody_intDigits _ h2

theorem qtyCoerce_digits (l : List Char) (h1 : pyStrip l = l) (h2 : allDigits l = true) :
    qtyCoerce l = PyVal.vFloat ((digitsVal l : Nat) : Rat) := by
  unfold qtyCoerce
  rw [pyFloat_digits l h1 h2]

theorem qty_exC4 :
    qty_to_json exC4Qty
      = [{ item := strConcrete, unit := strCY, value := PyVal.vFloat 35 },
         { item := strLF, unit := strCurb, value := PyVal.vFloat 120 }] := by
  have h1 : qty_to_json exC4Qty
      = [{ item := strConcrete, unit := strCY, value := qtyCoerce ['3', '5'] },
         { item := strLF, unit := strCurb, value := qtyCoerce ['1', '2', '0'] }] := rfl
  rw [h1, qtyCoerce_digits ['3', '5'] (by decide) (by decide),
    qtyCoerce_digits ['1', '2', '0'] (by decide) (by decide),
    show digitsVal ['3', '5'] = 35 from by decide,
    show digitsVal ['1', '2', '0'] = 120 from by decide]
  simp

theorem qty_exC10 :
    qty_to_json exC10ColonQty = [{ item := [], unit := [], value := PyVal.vFloat 35 }] := by
  have h1 : qty_to_json exC10ColonQty
      = [{ item := [], unit := [], value := qtyCoerce ['3', '5'] }] := rfl
  rw [h1, qtyCoerce_digits ['3', '5'] (by decide) (by decide),
    show digitsVal ['3', '5'] = 35 from by decide]
  simp

/-! ## Leading and trailing separators produce no entries -/

theorem pyStrip_ne_nil_of_mem {c : Char} {l : List Char} (hc : c ∈ l)
    (hs : isSpaceChar c = false) : pyStrip l ≠ [] := by
  intro h
  have h2 := pyStrip_eq_nil_iff.mp h c hc
  rw [hs] at h2
  cases h2

theorem clean_cons_sep (sep : Char) (l : List Char) :
    ((splitChar sep (sep :: l)).map pyStrip).filter (· ≠ [])
      = ((splitChar sep l).map pyStrip).filter (· ≠ []) := by
  rw [splitChar_cons_sep]
  rfl

theorem splitChar_concat_sep (sep : Char) (l : List Char) :
    splitChar sep (l ++ [sep]) = splitChar sep l ++ [[]] := by
  rw [show l ++ [sep] = l ++ sep :: [] from rfl, splitChar_append_sep]
  rfl

theorem clean_concat_sep (sep : Char) (l : List Char) :
    ((splitChar sep (l ++ [sep])).map pyStrip).filter (· ≠ [])
      = ((splitChar sep l).map pyStrip).filter (· ≠ []) := by
  rw [splitChar_concat_sep, List.map_append, List.filter_append]
  simp [show pyStrip [] = [] from rfl]

theorem pyStrip_cons_nil_iff {c : Char} (hc : isSpaceChar c = true) {l : List Char} :
    pyStrip (c :: l) = [] ↔ pyStrip l = [] := by
  rw [pyStrip_eq_nil_iff, pyStrip_eq_nil_iff]
  constructor
  · intro h d hd
    exact h d (List.mem_cons_of_mem c hd)
  · intro h d hd
    rcases List.mem_cons.mp hd with rfl | hd2
    · exact hc
    · exact h d hd2

theorem pyStrip_concat_nil_iff {c : Char} (hc : isSpaceChar c = true) {l : List Char} :
    pyStrip (l ++ [c]) = [] ↔ pyStrip l = [] := by
  rw [pyStrip_eq_nil_iff, pyStrip_eq_nil_iff]
  constructor
  · intro h d hd
    exact h d (List.mem_append.mpr (Or.inl hd))
  · intro h d hd
    rcases List.mem_append.mp hd with hd2 | hd2
    · exact h d hd2
    · rw [List.mem_singleton] at hd2
      rw [hd2]
      exact hc

theorem lastTrim_concat_nil (P : List (List Char)) : lastTrim (P ++ [[]]) = P := by
  unfold lastTrim
  rw [List.getLast?_concat, if_pos rfl, List.dropLast_concat]

theorem clean_lastTrim (P : List (List Char)) :
    ((lastTrim P).map pyStrip).filter (· ≠ [])
      = (P.map pyStrip).filter (· ≠ []) := by
  unfold lastTrim
  by_cases h : P.getLast? = some []
  · rw [if_pos h]
    induction P using List.reverseRecOn with
    | nil => cases h
    | append_singleton Q a _ =>
        rw [List.getLast?_concat] at h
        have ha : a = [] := by
          cases h
          rfl
        rw [ha, List.dropLast_concat, List.map_append, List.filter_append]
        simp [show pyStrip [] = [] from rfl]
  · rw [if_neg h]

theorem dropNlAfterCr_append_nl (l : List Char) : ∀ p : Bool,
    dropNlAfterCr p (l ++ ['\n']) = dropNlAfterCr p l ∨
    dropNlAfterCr p (l ++ ['\n']) = dropNlAfterCr p l ++ ['\n'] := by
  induction l with
  | nil =>
      intro p
      cases p
      · right
        rw [dropNlAfterCr_nil, List.nil_append, dropNlAfterCr_cons,
          if_neg (by simp), dropNlAfterCr_nil]
      · left
        rw [dropNlAfterCr_nil, List.nil_append, dropNlAfterCr_cons,
          if_pos (by simp), dropNlAfterCr_nil]
  | cons c t ih =>
      intro p
      rw [List.cons_append, dropNlAfterCr_cons, dropNlAfterCr_cons]
      by_cases hb : p = true ∧ c = '\n'
      · rw [if_pos hb, if_pos hb]
        exact ih false
      · rw [if_neg hb, if_neg hb]
        rcases ih (c == '\r') with h | h
        · left
          rw [h]
        · right
          rw [h]
          rfl

theorem nlNorm_append_nl (l : List Char) :
    nlNorm (l ++ ['\n']) = nlNorm l ∨ nlNorm (l ++ ['\n']) = nlNorm l ++ ['\n'] := by
  unfold nlNorm
  rcases dropNlAfterCr_append_nl l false with h | h
  · left
    rw [h]
  · right
    rw [h, replaceChar_append]
    rfl

theorem clean_lines_concat_nl (s : List Char) :
    ((splitLines (s ++ ['\n'])).map pyStrip).filter (· ≠ [])
      = ((splitLines s).map pyStrip).filter (· ≠ []) := by
  rcases nlNorm_append_nl s with h | h
  · rw [splitLines_def, splitLines_def, h]
  · rw [splitLines_def, h]
    unfold splitChar
    rw [splitP_append_sep (by simp) (nlNorm s) [],
      show splitP (fun c => c == '\n') ([] : List Char) = [[]] from rfl,
      lastTrim_concat_nil]
    rw [splitLines_def]
    exact (clean_lastTrim _).symm

theorem clean_lines_cons_nl (s : List Char) :
    ((splitLines ('\n' :: s)).map pyStrip).filter (· ≠ [])
      = ((splitLines s).map pyStrip).filter (· ≠ []) := by
  rw [splitLines_cons_nl]
  rfl

theorem mem_replace2_space {s : List Char} (hb : pyStrip s = []) :
    ∀ c ∈ replaceChar ';' ',' (replaceChar '\n' ',' s), c ≠ ',' → isSpaceChar c = true := by
  intro c hc hcne
  rcases mem_replaceChar hc with rfl | ⟨hc2, _⟩
  · exact absurd rfl hcne
  · rcases mem_replaceChar hc2 with rfl | ⟨hc3, _⟩
    · exact absurd rfl hcne
    · exact pyStrip_eq_nil_iff.mp hb c hc3

theorem str_to_list_cons_sep (s : List Char) : str_to_list (',' :: s) = str_to_list s := by
  unfold str_to_list
  rw [if_neg (pyStrip_ne_nil_of_mem (List.mem_cons_self ',' s) (by decide))]
  rw [replaceChar_cons, if_neg (by decide), replaceChar_cons, if_neg (by decide),
    clean_cons_sep]
  by_cases hb : pyStrip s = []
  · rw [if_pos hb, clean_split_nil ',' (mem_replace2_space hb)]
  · rw [if_neg hb]

theorem str_to_list_concat_sep (s : List Char) : str_to_list (s ++ [',']) = str_to_list s := by
  unfold str_to_list
  rw [if_neg (pyStrip_ne_nil_of_mem (List.mem_append.mpr (Or.inr (List.mem_singleton.mpr rfl)))
    (by decide))]
  rw [replaceChar_append, show replaceChar '\n' ',' [','] = [','] from by decide,
    replaceChar_append, show replaceChar ';' ',' [','] = [','] from by decide,
    clean_concat_sep]
  by_cases hb : pyStrip s = []
  · rw [if_pos hb, clean_split_nil ',' (mem_replace2_space hb)]
  · rw [if_neg hb]

theorem kvlist_cons_sep (s : List Char) (ch : Bool) :
    kvlist_to_json (',' :: s) ':' ',' ch = kvlist_to_json s ':' ',' ch := by
  unfold kvlist_to_json
  rw [if_neg (pyStrip_ne_nil_of_mem (List.mem_cons_self ',' s) (by decide))]
  rw [replaceChar_cons, if_neg (by decide), clean_cons_sep]
  by_cases hb : pyStrip s = []
  · rw [if_pos hb, clean_split_nil ','
      (fun c hc hcne => pyStrip_eq_nil_iff.mp hb c (mem_of_mem_replace_nl hc hcne))]
    rfl
  · rw [if_neg hb]

theorem kvlist_concat_sep (s : List Char) (ch : Bool) :
    kvlist_to_json (s ++ [',']) ':' ',' ch = kvlist_to_json s ':' ',' ch := by
  unfold kvlist_to_json
  rw [if_neg (pyStrip_ne_nil_of_mem (List.mem_append.mpr (Or.inr (List.mem_singleton.mpr rfl)))
    (by decide))]
  rw [replaceChar_append, show replaceChar '\n' ',' [','] = [','] from by decide,
    clean_concat_sep]
  by_cases hb : pyStrip s = []
  · rw [if_pos hb, clean_split_nil ','
      (fun c hc hcne => pyStrip_eq_nil_iff.mp hb c (mem_of_mem_replace_nl hc hcne))]
    rfl
  · rw [if_neg hb]

theorem qty_cons_nl (s : List Char) : qty_to_json ('\n' :: s) = qty_to_json s := by
  unfold qty_to_json
  by_cases hb : pyStrip s = []
  · rw [if_pos hb, if_pos ((pyStrip_cons_nil_iff (by decide)).mpr hb)]
  · rw [if_neg hb, if_neg (fun h => hb ((pyStrip_cons_nil_iff (by decide)).mp h)),
      clean_lines_cons_nl]

theorem qty_concat_nl (s : List Char) : qty_to_json (s ++ ['\n']) = qty_to_json s := by
  unfold qty_to_json
  by_cases hb : pyStrip s = []
  · rw [if_pos hb, if_pos ((pyStrip_concat_nil_iff (by decide)).mpr hb)]
  · rw [if_neg hb, if_neg (fun h => hb ((pyStrip_concat_nil_iff (by decide)).mp h)),
      clean_lines_concat_nl]

theorem acts_cons_sep (s : List Char) : actsParse (';' :: s) = actsParse s := by
  unfold actsParse
  rw [replaceChar_cons, if_neg (by decide), clean_cons_sep]

theorem acts_concat_sep (s : List Char) : actsParse (s ++ [';']) = actsParse s := by
  unfold actsParse
  rw [replaceChar_append, show replaceChar '\n' ';' [';'] = [';'] from by decide,
    clean_concat_sep]

/-! ## Character classes of the serialized values -/

theorem mem_reprInt (i : Int) : ∀ c ∈ reprInt i, c = '-' ∨ c.isDigit = true := by
  unfold reprInt
  split
  · intro c hc
    rcases List.mem_cons.mp hc with rfl | h2
    · exact Or.inl rfl
    · exact Or.inr (reprNat_all_digits _ c h2)
  · intro c hc
    exact Or.inr (reprNat_all_digits _ c hc)

theorem mem_reprFloat_body (q : Rat) :
    ∀ c ∈ floatIp q ++ '.' :: floatFp q, c = '.' ∨ c.isDigit = true := by
  intro c hc
  rcases List.mem_append.mp hc with h1 | h2
  · exact Or.inr (floatIp_all_digits q c h1)
  · rcases List.mem_cons.mp h2 with rfl | h3
    · exact Or.inl rfl
    · exact Or.inr (floatFp_all_digits q c h3)

theorem mem_reprFloat (q : Rat) :
    ∀ c ∈ reprFloat q, c = '-' ∨ c = '.' ∨ c.isDigit = true := by
  unfold reprFloat
  split
  · intro c hc
    rcases List.mem_cons.mp hc with rfl | h2
    · exact Or.inl rfl
    · exact Or.inr (mem_reprFloat_body q c h2)
  · intro c hc
    exact Or.inr (mem_reprFloat_body q c hc)

theorem pyStrip_reprInt (i : Int) : pyStrip (reprInt i) = reprInt i :=
  pyStrip_eq_self_of_no_space (fun c hc => by
    rcases mem_reprInt i c hc with rfl | h
    · decide
    · exact isDigit_not_space h)

theorem pyStrip_reprFloat (q : Rat) : pyStrip (reprFloat q) = reprFloat q :=
  pyStrip_eq_self_of_no_space (fun c hc => by
    rcases mem_reprFloat q c hc with rfl | rfl | h
    · decide
    · decide
    · exact isDigit_not_space h)

theorem not_mem_reprInt {x : Char} (h1 : x ≠ '-') (h3 : x.isDigit = false) (i : Int) :
    x ∉ reprInt i := by
  intro hm
  rcases mem_reprInt i x hm with rfl | h
  · exact h1 rfl
  · rw [h] at h3
    cases h3

theorem not_mem_reprFloat {x : Char} (h1 : x ≠ '-') (h2 : x ≠ '.')
    (h3 : x.isDigit = false) (q : Rat) : x ∉ reprFloat q := by
  intro hm
  rcases mem_reprFloat q x hm with rfl | rfl | h
  · exact h1 rfl
  · exact h2 rfl
  · rw [h] at h3
    cases h3

/-! ## Joining and re-splitting -/

theorem mem_joinSep {sep : List Char} {P : List (List Char)} {c : Char}
    (h : c ∈ joinSep sep P) : c ∈ sep ∨ ∃ p ∈ P, c ∈ p := by
  induction P with
  | nil => cases h
  | cons x xs ih =>
      cases xs with
      | nil => exact Or.inr ⟨x, List.mem_cons_self x [], h⟩
      | cons y ys =>
          rw [show joinSep sep (x :: y :: ys) = x ++ sep ++ joinSep sep (y :: ys) from rfl] at h
          rcases List.mem_append.mp h with h1 | h2
          · rcases List.mem_append.mp h1 with hx | hs
            · exact Or.inr ⟨x, List.mem_cons_self x _, hx⟩
            · exact Or.inl hs
          · rcases ih h2 with hs | ⟨p, hp, hcp⟩
            · exact Or.inl hs
            · exact Or.inr ⟨p, List.mem_cons_of_mem x hp, hcp⟩

theorem map_pyStrip_split_join (sep : Char) (hs : (' ' == sep) = false)
    {P : List (List Char)} (hne : P ≠ []) (hnm : ∀ p ∈ P, sep ∉ p) :
    (splitChar sep (joinSep [sep, ' '] P)).map pyStrip = P.map pyStrip := by
  induction P with
  | nil => cases hne rfl
  | cons x xs ih =>
      cases xs with
      | nil =>
          rw [show joinSep [sep, ' '] [x] = x from rfl,
            splitChar_of_not_mem (hnm x (List.mem_cons_self x []))]
      | cons y ys =>
          have hj : joinSep [sep, ' '] (x :: y :: ys)
              = x ++ [sep, ' '] ++ joinSep [sep, ' '] (y :: ys) := rfl
          rw [hj, List.append_assoc,
            show ([sep, ' '] : List Char) ++ joinSep [sep, ' '] (y :: ys)
              = sep :: ' ' :: joinSep [sep, ' '] (y :: ys) from rfl,
            splitChar_append_sep, splitChar_of_not_mem (hnm x (List.mem_cons_self x _))]
          unfold splitChar
          rw [splitP_cons_not (p := fun c => c == sep) (c := ' ') hs]
          cases hH : splitP (fun x => x == sep) (joinSep [sep, ' '] (y :: ys)) with
          | nil => exact absurd hH (splitP_ne_nil _ _)
          | cons a as =>
              have ihr := ih (List.cons_ne_nil y ys)
                (fun p hp => hnm p (List.mem_cons_of_mem x hp))
              unfold splitChar at ihr
              rw [hH] at ihr
              simp only [List.singleton_append, List.map_cons, List.headI, List.tail_cons]
              rw [pyStrip_cons_space (by decide)]
              simp only [List.map_cons] at ihr
              rw [ihr]

theorem splitWs_join {P : List (List Char)} (hne : P ≠ [])
    (h : ∀ p ∈ P, p ≠ [] ∧ ∀ c ∈ p, isSpaceChar c = false) :
    splitWs (joinSep [' '] P) = P := by
  induction P with
  | nil => cases hne rfl
  | cons x xs ih =>
      cases xs with
      | nil =>
          have hx := h x (List.mem_cons_self x [])
          unfold splitWs
          rw [show joinSep [' '] [x] = x from rfl, splitP_of_all_not hx.2]
          simp [hx.1]
      | cons y ys =>
          have hx := h x (List.mem_cons_self x _)
          have hj : joinSep [' '] (x :: y :: ys)
              = x ++ [' '] ++ joinSep [' '] (y :: ys) := rfl
          unfold splitWs
          rw [hj, List.append_assoc,
            show ([' '] : List Char) ++ joinSep [' '] (y :: ys)
              = ' ' :: joinSep [' '] (y :: ys) from rfl,
            splitP_append_sep (by decide), splitP_of_all_not hx.2, List.filter_append,
            show List.filter (fun x => decide (x ≠ [])) [x] = [x] from by simp [hx.1]]
          have ihr := ih (List.cons_ne_nil y ys) (fun p hp => h p (List.mem_cons_of_mem x hp))
          unfold splitWs at ihr
          rw [ihr]
          rfl

theorem mem_splitWs {X x : List Char} (hx : x ∈ splitWs X) :
    x ≠ [] ∧ ∀ c ∈ x, isSpaceChar c = false ∧ c ∈ X := by
  unfold splitWs at hx
  have h1 := List.of_mem_filter hx
  have h2 := List.mem_of_mem_filter hx
  refine ⟨by simpa using h1, fun c hc => ?_⟩
  have h3 := mem_splitP h2 c hc
  exact ⟨h3.2, h3.1⟩

theorem mem_splitLines_no_break {l x : List Char} (hx : x ∈ splitLines l) :
    ∀ c ∈ x, c ≠ '\n' ∧ c ≠ '\r' := by
  intro c hc
  rw [splitLines_def] at hx
  have hx2 := mem_lastTrim hx
  have hm := mem_splitP hx2 c hc
  have hnl : c ≠ '\n' := by simpa using hm.2
  refine ⟨hnl, ?_⟩
  rcases mem_replaceChar hm.1 with rfl | ⟨_, hne⟩
  · exact absurd rfl hnl
  · exact hne

theorem filterMap_if_of_all {α β : Type} (P : α → Prop) [DecidablePred P] (g : α → β)
    {l : List α} (h : ∀ x ∈ l, P x) :
    l.filterMap (fun x => if P x then some (g x) else none) = l.map g := by
  induction l with
  | nil => rfl
  | cons a t ih =>
      rw [List.filterMap_cons]
      rw [if_pos (h a (List.mem_cons_self a t)), List.map_cons,
        ih (fun x hx => h x (List.mem_cons_of_mem a hx))]

theorem isAlpha_not_space {c : Char} (h : c.isAlpha = true) : isSpaceChar c = false := by
  by_contra h2
  have h3 : isSpaceChar c = true := by simpa using h2
  unfold isSpaceChar at h3
  simp only [Bool.or_eq_true, beq_iff_eq] at h3
  rcases h3 with ((((rfl | rfl) | rfl) | rfl) | rfl) | rfl <;> exact absurd h (by decide)

theorem subset_joinSep_head {sep x : List Char} {xs : List (List Char)} {c : Char}
    (hc : c ∈ x) : c ∈ joinSep sep (x :: xs) := by
  cases xs with
  | nil => exact hc
  | cons y ys =>
      rw [show joinSep sep (x :: y :: ys) = x ++ sep ++ joinSep sep (y :: ys) from rfl]
      exact List.mem_append.mpr (Or.inl (List.mem_append.mpr (Or.inl hc)))

theorem joinSep_concat (sep : List Char) {P : List (List Char)} (hne : P ≠ [])
    (x : List Char) : joinSep sep (P ++ [x]) = joinSep sep P ++ sep ++ x := by
  induction P with
  | nil => cases hne rfl
  | cons a as ih =>
      cases as with
      | nil => rfl
      | cons b bs =>
          have h1 : joinSep sep (a :: b :: bs) = a ++ sep ++ joinSep sep (b :: bs) := rfl
          have h2 : joinSep sep ((a :: b :: bs) ++ [x])
              = a ++ sep ++ joinSep sep ((b :: bs) ++ [x]) := rfl
          rw [h2, ih (List.cons_ne_nil b bs), h1]
          simp [List.append_assoc]

theorem splitWs_dropWhile (X : List Char) :
    splitWs (X.dropWhile isSpaceChar) = splitWs X := by
  induction X with
  | nil => rfl
  | cons c t ih =>
      by_cases hc : isSpaceChar c = true
      · rw [List.dropWhile_cons_of_pos (by simpa using hc)]
        rw [ih]
        unfold splitWs
        rw [splitP_cons_sep hc]
        rfl
      · rw [List.dropWhile_cons_of_neg (by simpa using hc)]

theorem splitWs_concat_space {c : Char} (hc : isSpaceChar c = true) (Y : List Char) :
    splitWs (Y ++ [c]) = splitWs Y := by
  unfold splitWs
  rw [show Y ++ [c] = Y ++ c :: [] from rfl, splitP_append_sep hc,
    show splitP isSpaceChar ([] : List Char) = [[]] from rfl, List.filter_append]
  simp

theorem splitWs_stripEnd (X : List Char) : splitWs (stripEnd X) = splitWs X := by
  induction X using List.reverseRecOn with
  | nil => rfl
  | append_singleton Y c ih =>
      by_cases hc : isSpaceChar c = true
      · rw [stripEnd_append_space hc, ih, splitWs_concat_space hc]
      · rw [stripEnd_append_not_space (by simpa using hc)]

theorem splitWs_pyStrip (X : List Char) : splitWs (pyStrip X) = splitWs X := by
  unfold pyStrip
  rw [splitWs_stripEnd, splitWs_dropWhile]

/-- The unit-peeling test as a function of the trimmed left half alone. -/
def qtyPeelOf (left : List Char) : Bool :=
  decide (2 ≤ (splitWs left).length) &&
    (!((splitWs left).getLast?.getD []).isEmpty &&
      ((splitWs left).getLast?.getD []).all Char.isAlpha)

theorem qtyPeel_eq (line : List Char) : qtyPeel line = qtyPeelOf (qtyLeft line) := rfl

/-! ## Invariants of normalizer outputs -/

/-- A `count` cell as the key-count coercion produces it: an int, a float
with a 10-smooth denominator, or a trimmed `,`/newline-free string on which
both `int()` and `float()` fail. -/
def GoodCount (c : PyVal) : Prop :=
  (∃ n, c = PyVal.vInt n) ∨
  (∃ q, c = PyVal.vFloat q ∧ ∃ k, (q.den : Nat) ∣ 10 ^ k) ∨
  (∃ v, c = PyVal.vStr v ∧ pyInt v = none ∧ pyFloat v = none ∧ pyStrip v = v ∧
    ',' ∉ v ∧ '\n' ∉ v)

/-- A key-count record as `kvlist_to_json` produces it. -/
def GoodKV (name : List Char) (r : KVRec) : Prop :=
  r.keyName = name ∧ pyStrip r.key = r.key ∧ ',' ∉ r.key ∧ ':' ∉ r.key ∧
  '\n' ∉ r.key ∧ GoodCount r.count

/-- A `value` cell as the quantity coercion produces it. -/
def GoodVal (c : PyVal) : Prop :=
  (∃ q, c = PyVal.vFloat q ∧ ∃ k, (q.den : Nat) ∣ 10 ^ k) ∨
  (∃ v, c = PyVal.vStr v ∧ pyFloat v = none ∧ pyStrip v = v ∧ '\n' ∉ v ∧ '\r' ∉ v)

/-- A quantity record as `qty_to_json` produces it: either no unit was
peeled (and the item is trimmed and fails the peel test), or the item is a
single-space join of whitespace-free tokens and the unit an alphabetic
token. -/
def GoodQty (r : QtyRec) : Prop :=
  (':' ∉ r.item ∧ '\n' ∉ r.item ∧ '\r' ∉ r.item) ∧
  (':' ∉ r.unit ∧ '\n' ∉ r.unit ∧ '\r' ∉ r.unit) ∧
  GoodVal r.value ∧
  ((r.unit = [] ∧ pyStrip r.item = r.item ∧ qtyPeelOf r.item = false) ∨
   (∃ toks, toks ≠ [] ∧ (∀ t ∈ toks, t ≠ [] ∧ ∀ c ∈ t, isSpaceChar c = false) ∧
     r.item = joinSep [' '] toks ∧ r.unit ≠ [] ∧ r.unit.all Char.isAlpha = true))

/-- An activity record as the submit handler produces it. -/
def GoodAct (r : ActRec) : Prop :=
  r.location = [] ∧ r.description ≠ [] ∧ pyStrip r.description = r.description ∧
  ';' ∉ r.description ∧ '\n' ∉ r.description

theorem pyCoerce_pyValStr (c : PyVal) (h : GoodCount c) :
    pyCoerce (pyStrip (pyValStr c)) = c := by
  rcases h with ⟨n, rfl⟩ | ⟨q, rfl, hsm⟩ | ⟨v, rfl, hi, hf, hvs, _, _⟩
  · show pyCoerce (pyStrip (reprInt n)) = _
    rw [pyStrip_reprInt]
    unfold pyCoerce
    rw [pyInt_reprInt]
  · show pyCoerce (pyStrip (reprFloat q)) = _
    rw [pyStrip_reprFloat]
    unfold pyCoerce
    rw [pyInt_reprFloat, pyFloat_reprFloat hsm]
  · show pyCoerce (pyStrip v) = _
    rw [hvs]
    unfold pyCoerce
    rw [hi, hf]

theorem qtyCoerce_pyValStr (c : PyVal) (h : GoodVal c) :
    qtyCoerce (pyStrip (pyValStr c)) = c := by
  rcases h with ⟨q, rfl, hsm⟩ | ⟨v, rfl, hf, hvs, _, _⟩
  · show qtyCoerce (pyStrip (reprFloat q)) = _
    rw [pyStrip_reprFloat]
    unfold qtyCoerce
    rw [pyFloat_reprFloat hsm]
  · show qtyCoerce (pyStrip v) = _
    rw [hvs]
    unfold qtyCoerce
    rw [hf]

theorem not_mem_pyValStr {x : Char} (hxm : x ≠ '-') (hxd : x ≠ '.')
    (hxg : x.isDigit = false) {c : PyVal}
    (hstr : ∀ v, c = PyVal.vStr v → x ∉ v) : x ∉ pyValStr c := by
  cases c with
  | vInt n => exact not_mem_reprInt hxm hxg n
  | vFloat q => exact not_mem_reprFloat hxm hxd hxg q
  | vStr v => exact hstr v rfl

theorem kvItemRec_piece (ch : Bool) (r : KVRec)
    (h : GoodKV (if ch then chTrade else chType) r) :
    kvItemRec ':' ch (r.key ++ ':' :: ' ' :: pyValStr r.count) = r := by
  obtain ⟨kn, k, cnt⟩ := r
  obtain ⟨hname, hstrip, _, hcol, _, hcnt⟩ := h
  show kvItemRec ':' ch (k ++ ':' :: ' ' :: pyValStr cnt) = ⟨kn, k, cnt⟩
  unfold kvItemRec
  rw [splitFirst_append_cons (show ':' ∉ k from hcol)]
  rw [show pyStrip k = k from hstrip, pyStrip_cons_space (by decide),
    pyCoerce_pyValStr cnt hcnt, show kn = (if ch then chTrade else chType) from hname]

theorem qtyLineRec_piece (r : QtyRec) (h : GoodQty r) :
    qtyLineRec (pyStrip (r.item ++ ' ' :: r.unit) ++ ':' :: ' ' :: pyValStr r.value)
      = r := by
  obtain ⟨itm, unt, val⟩ := r
  obtain ⟨⟨hic, _, _⟩, ⟨huc, _, _⟩, hval, hcase⟩ := h
  show qtyLineRec (pyStrip (itm ++ ' ' :: unt) ++ ':' :: ' ' :: pyValStr val)
      = ⟨itm, unt, val⟩
  have hnc : ':' ∉ pyStrip (itm ++ ' ' :: unt) := by
    intro hm
    rcases List.mem_append.mp (mem_of_mem_pyStrip hm) with h1 | h2
    · exact hic h1
    · rcases List.mem_cons.mp h2 with he | h3
      · cases he
      · exact huc h3
  have hsf := splitFirst_append_cons hnc (' ' :: pyValStr val)
  have hleft : qtyLeft (pyStrip (itm ++ ' ' :: unt) ++ ':' :: ' ' :: pyValStr val)
      = pyStrip (itm ++ ' ' :: unt) := by
    unfold qtyLeft
    rw [hsf, pyStrip_idem]
  have hv : qtyVal (pyStrip (itm ++ ' ' :: unt) ++ ':' :: ' ' :: pyValStr val)
      = pyStrip (pyValStr val) := by
    unfold qtyVal
    rw [hsf, pyStrip_cons_space (by decide)]
  have hparts : qtyParts (pyStrip (itm ++ ' ' :: unt) ++ ':' :: ' ' :: pyValStr val)
      = splitWs (itm ++ ' ' :: unt) := by
    unfold qtyParts
    rw [hleft, splitWs_pyStrip]
  rcases hcase with ⟨hu0, hitstrip, hpeelf⟩ | ⟨toks, htne, htok, hitm, hune, halpha⟩
  · subst hu0
    have hitem : pyStrip (itm ++ ' ' :: ([] : List Char)) = itm := by
      rw [show itm ++ ' ' :: ([] : List Char) = itm ++ [' '] from rfl,
        pyStrip_append_space (by decide), hitstrip]
    have hparts2 : splitWs (itm ++ ' ' :: ([] : List Char)) = splitWs itm := by
      rw [show itm ++ ' ' :: ([] : List Char) = itm ++ [' '] from rfl,
        splitWs_concat_space (by decide)]
    have hpeel : qtyPeel (pyStrip (itm ++ ' ' :: ([] : List Char))
        ++ ':' :: ' ' :: pyValStr val) = false := by
      rw [qtyPeel_eq, hleft]
      unfold qtyPeelOf
      unfold qtyPeelOf at hpeelf
      rw [splitWs_pyStrip, hparts2]
      exact hpeelf
    unfold qtyLineRec
    rw [hpeel, hleft, hv, qtyCoerce_pyValStr val hval, hitem]
    simp
  · have hjoin : itm ++ ' ' :: unt = joinSep [' '] (toks ++ [unt]) := by
      rw [joinSep_concat [' '] htne unt, ← hitm, List.append_assoc]
      rfl
    have htokall : ∀ t ∈ toks ++ [unt], t ≠ [] ∧ ∀ c ∈ t, isSpaceChar c = false := by
      intro t ht
      rcases List.mem_append.mp ht with h1 | h2
      · exact htok t h1
      · rw [List.mem_singleton] at h2
        subst h2
        refine ⟨hune, fun c hc => isAlpha_not_space ?_⟩
        rw [List.all_eq_true] at halpha
        simpa using halpha c hc
    have hsw : splitWs (itm ++ ' ' :: unt) = toks ++ [unt] := by
      rw [hjoin]
      exact splitWs_join (by simp) htokall
    have hlast : (toks ++ [unt]).getLast?.getD [] = unt := by
      rw [List.getLast?_concat]
      rfl
    have hpeel : qtyPeel (pyStrip (itm ++ ' ' :: unt) ++ ':' :: ' ' :: pyValStr val)
        = true := by
      rw [qtyPeel_eq, hleft]
      unfold qtyPeelOf
      rw [splitWs_pyStrip, hsw, hlast]
      have hlen : 2 ≤ (toks ++ [unt]).length := by
        have h0 : 0 < toks.length := List.length_pos.mpr htne
        rw [List.length_append, List.length_singleton]
        omega
      rw [halpha]
      simp [hlen, hune]
      exact List.length_pos.mpr htne
    unfold qtyLineRec
    rw [hpeel, hv, qtyCoerce_pyValStr val hval]
    have hparts3 : qtyParts (pyStrip (itm ++ ' ' :: unt) ++ ':' :: ' ' :: pyValStr val)
        = toks ++ [unt] := by
      rw [hparts, hsw]
    have hlasttok : qtyLastTok (pyStrip (itm ++ ' ' :: unt) ++ ':' :: ' ' :: pyValStr val)
        = unt := by
      unfold qtyLastTok
      rw [hparts3, hlast]
    rw [hparts3, hlasttok, List.dropLast_concat, ← hitm]
    simp

theorem GoodCount_pyCoerce (v : List Char) (hs : pyStrip v = v) (hcm : ',' ∉ v)
    (hnl : '\n' ∉ v) : GoodCount (pyCoerce v) := by
  unfold pyCoerce
  cases hi : pyInt v with
  | some n => exact Or.inl ⟨n, rfl⟩
  | none =>
      cases hf : pyFloat v with
      | some q => exact Or.inr (Or.inl ⟨q, rfl, pyFloat_smooth hf⟩)
      | none => exact Or.inr (Or.inr ⟨v, rfl, hi, hf, hs, hcm, hnl⟩)

theorem GoodVal_qtyCoerce (v : List Char) (hs : pyStrip v = v) (hnl : '\n' ∉ v)
    (hcr : '\r' ∉ v) : GoodVal (qtyCoerce v) := by
  unfold qtyCoerce
  cases hf : pyFloat v with
  | some q => exact Or.inl ⟨q, rfl, pyFloat_smooth hf⟩
  | none => exact Or.inr ⟨v, rfl, hf, hs, hnl, hcr⟩

theorem kv_item_chars {s it : List Char}
    (hit : it ∈ ((splitChar ',' (replaceChar '\n' ',' s)).map pyStrip).filter (· ≠ [])) :
    ∀ c ∈ it, c ≠ ',' ∧ c ≠ '\n' := by
  have h2 := List.mem_of_mem_filter hit
  rw [List.mem_map] at h2
  obtain ⟨p, hp, hpe⟩ := h2
  intro c hc
  rw [← hpe] at hc
  have hcp := mem_of_mem_pyStrip hc
  have hm := mem_splitP hp c hcp
  have hnc : c ≠ ',' := by simpa using hm.2
  refine ⟨hnc, ?_⟩
  rcases mem_replaceChar hm.1 with rfl | ⟨_, hne⟩
  · exact absurd rfl hnc
  · exact hne

theorem kv_output_good (s : List Char) (ch : Bool) :
    ∀ r ∈ kvlist_to_json s ':' ',' ch, GoodKV (if ch then chTrade else chType) r := by
  intro r hr
  rw [kvlist_eq_filterMap] at hr
  split at hr
  · cases hr
  · rw [List.mem_filterMap] at hr
    obtain ⟨it, hit, hrec⟩ := hr
    have hchars := kv_item_chars hit
    split at hrec
    · cases hrec
      refine ⟨rfl, pyStrip_idem _, ?_, ?_, ?_, ?_⟩
      · intro hm
        exact (hchars ',' (mem_splitFirst_fst (mem_of_mem_pyStrip hm))).1 rfl
      · intro hm
        exact splitFirst_fst_not_mem ':' it (mem_of_mem_pyStrip hm)
      · intro hm
        exact (hchars '\n' (mem_splitFirst_fst (mem_of_mem_pyStrip hm))).2 rfl
      · exact GoodCount_pyCoerce _ (pyStrip_idem _)
          (fun hm => (hchars ',' (mem_splitFirst_snd (mem_of_mem_pyStrip hm))).1 rfl)
          (fun hm => (hchars '\n' (mem_splitFirst_snd (mem_of_mem_pyStrip hm))).2 rfl)
    · cases hrec

theorem qty_line_chars {s line : List Char}
    (hline : line ∈ ((splitLines s).map pyStrip).filter (· ≠ [])) :
    ∀ c ∈ line, c ≠ '\n' ∧ c ≠ '\r' := by
  have h2 := List.mem_of_mem_filter hline
  rw [List.mem_map] at h2
  obtain ⟨p, hp, hpe⟩ := h2
  intro c hc
  rw [← hpe] at hc
  exact mem_splitLines_no_break hp c (mem_of_mem_pyStrip hc)

theorem qty_output_good (s : List Char) : ∀ r ∈ qty_to_json s, GoodQty r := by
  intro r hr
  rw [qty_eq_filterMap] at hr
  split at hr
  · cases hr
  · rw [List.mem_filterMap] at hr
    obtain ⟨line, hline, hrec⟩ := hr
    have hchars := qty_line_chars hline
    split at hrec
    case isTrue hcol =>
      cases hrec
      have hleftsub : ∀ c ∈ qtyLeft line, c ∈ line :=
        fun c hc => mem_splitFirst_fst (mem_of_mem_pyStrip hc)
      have hleftcol : ':' ∉ qtyLeft line :=
        fun hm => splitFirst_fst_not_mem ':' line (mem_of_mem_pyStrip hm)
      have htoksub : ∀ t ∈ qtyParts line,
          t ≠ [] ∧ ∀ c ∈ t, isSpaceChar c = false ∧ c ∈ qtyLeft line :=
        fun t ht => mem_splitWs ht
      have hgv : GoodVal (qtyCoerce (qtyVal line)) :=
        GoodVal_qtyCoerce _ (pyStrip_idem _)
          (fun hm => (hchars '\n' (mem_splitFirst_snd (mem_of_mem_pyStrip hm))).1 rfl)
          (fun hm => (hchars '\r' (mem_splitFirst_snd (mem_of_mem_pyStrip hm))).2 rfl)
      by_cases hpeel : qtyPeel line = true
      · have hitem : (qtyLineRec line).item = joinSep [' '] (qtyParts line).dropLast := by
          unfold qtyLineRec
          rw [if_pos hpeel]
        have hunit : (qtyLineRec line).unit = qtyLastTok line := by
          unfold qtyLineRec
          rw [hpeel]
          simp
        have hp2 : 2 ≤ (qtyParts line).length ∧
            (qtyLastTok line ≠ [] ∧ (qtyLastTok line).all Char.isAlpha = true) := by
          unfold qtyPeel at hpeel
          simp only [Bool.and_eq_true, decide_eq_true_eq, Bool.not_eq_true',
            List.isEmpty_eq_false] at hpeel
          exact ⟨hpeel.1, hpeel.2.1, hpeel.2.2⟩
        have hlastmem : qtyLastTok line ∈ qtyParts line := by
          unfold qtyLastTok
          cases hg : (qtyParts line).getLast? with
          | none =>
              exact absurd (List.getLast?_eq_none_iff.mp hg) (by
                intro he
                rw [he] at hp2
                simp at hp2)
          | some x =>
              rw [Option.getD_some]
              exact List.mem_of_mem_getLast? hg
        have hitemchars : ∀ c ∈ joinSep [' '] (qtyParts line).dropLast,
            c ≠ ':' ∧ c ≠ '\n' ∧ c ≠ '\r' := by
          intro c hc
          rcases mem_joinSep hc with hs | ⟨t, ht, hct⟩
          · rw [List.mem_singleton] at hs
            subst hs
            exact ⟨by decide, by decide, by decide⟩
          · have h3 := (htoksub t (List.dropLast_subset _ ht)).2 c hct
            refine ⟨fun he => hleftcol (he ▸ h3.2), ?_, ?_⟩
            · exact fun he => (hchars c (hleftsub c h3.2)).1 he
            · exact fun he => (hchars c (hleftsub c h3.2)).2 he
        have hunitchars : ∀ c ∈ qtyLastTok line, c ≠ ':' ∧ c ≠ '\n' ∧ c ≠ '\r' := by
          intro c hc
          have h3 := (htoksub _ hlastmem).2 c hc
          refine ⟨fun he => hleftcol (he ▸ h3.2), ?_, ?_⟩
          · exact fun he => (hchars c (hleftsub c h3.2)).1 he
          · exact fun he => (hchars c (hleftsub c h3.2)).2 he
        refine ⟨?_, ?_, hgv, Or.inr ⟨(qtyParts line).dropLast, ?_, ?_, ?_, ?_, ?_⟩⟩
        · rw [hitem]
          exact ⟨fun hm => (hitemchars ':' hm).1 rfl,
            fun hm => (hitemchars '\n' hm).2.1 rfl,
            fun hm => (hitemchars '\r' hm).2.2 rfl⟩
        · rw [hunit]
          exact ⟨fun hm => (hunitchars ':' hm).1 rfl,
            fun hm => (hunitchars '\n' hm).2.1 rfl,
            fun hm => (hunitchars '\r' hm).2.2 rfl⟩
        · intro he
          have h4 := congrArg List.length he
          rw [List.length_dropLast] at h4
          simp at h4
          omega
        · exact fun t ht => ⟨(htoksub t (List.dropLast_subset _ ht)).1,
            fun c hc => ((htoksub t (List.dropLast_subset _ ht)).2 c hc).1⟩
        · exact hitem
        · rw [hunit]
          exact hp2.2.1
        · rw [hunit]
          exact hp2.2.2
      · have hpeel2 : qtyPeel line = false := by simpa using hpeel
        have hitem : (qtyLineRec line).item = qtyLeft line := by
          unfold qtyLineRec
          simp [hpeel2]
        have hunit : (qtyLineRec line).unit = [] := by
          unfold qtyLineRec
          rw [hpeel2]
          simp
        refine ⟨?_, ?_, hgv, Or.inl ⟨hunit, ?_, ?_⟩⟩
        · rw [hitem]
          exact ⟨hleftcol, fun hm => (hchars '\n' (hleftsub _ hm)).1 rfl,
            fun hm => (hchars '\r' (hleftsub _ hm)).2 rfl⟩
        · rw [hunit]
          simp
        · rw [hitem]
          exact pyStrip_idem _
        · rw [hitem]
          rw [← qtyPeel_eq]
          exact hpeel2
    case isFalse => cases hrec

theorem acts_output_good (s : List Char) : ∀ r ∈ actsParse s, GoodAct r := by
  intro r hr
  unfold actsParse at hr
  rw [List.mem_map] at hr
  obtain ⟨p, hp, hpr⟩ := hr
  have hpn : p ≠ [] := by simpa using List.of_mem_filter hp
  have hpm := List.mem_of_mem_filter hp
  rw [List.mem_map] at hpm
  obtain ⟨piece, hpiece, hps⟩ := hpm
  cases hpr
  refine ⟨rfl, hpn, ?_, ?_, ?_⟩
  · rw [← hps]
    exact pyStrip_idem piece
  · intro hm
    rw [← hps] at hm
    have h3 := mem_splitP hpiece ';' (mem_of_mem_pyStrip hm)
    simpa using h3.2
  · intro hm
    rw [← hps] at hm
    have h3 := mem_splitP hpiece '\n' (mem_of_mem_pyStrip hm)
    have hne : ('\n' : Char) ≠ ';' := by simp
    rcases mem_replaceChar h3.1 with he | ⟨_, hnn⟩
    · exact hne he
    · exact hnn rfl

/-! ## Serializing and reparsing -/

theorem GoodCount_vStr_chars {c : PyVal} (h : GoodCount c) :
    ∀ v, c = PyVal.vStr v → ',' ∉ v ∧ '\n' ∉ v := by
  intro v hv
  rcases h with ⟨n, hc⟩ | ⟨q, hc, _⟩ | ⟨w, hc, _, _, _, hw1, hw2⟩
  · rw [hv] at hc
    cases hc
  · rw [hv] at hc
    cases hc
  · rw [hv] at hc
    injection hc with he
    subst he
    exact ⟨hw1, hw2⟩

theorem GoodVal_vStr_chars {c : PyVal} (h : GoodVal c) :
    ∀ v, c = PyVal.vStr v → '\n' ∉ v ∧ '\r' ∉ v := by
  intro v hv
  rcases h with ⟨q, hc, _⟩ | ⟨w, hc, _, _, hw1, hw2⟩
  · rw [hv] at hc
    cases hc
  · rw [hv] at hc
    injection hc with he
    subst he
    exact ⟨hw1, hw2⟩

theorem kv_piece_no_char {x : Char} (hxc : x ≠ ':') (hxs : x ≠ ' ') (hxm : x ≠ '-')
    (hxd : x ≠ '.') (hxg : x.isDigit = false) {r : KVRec}
    (hk : x ∉ r.key) (hv : ∀ v, r.count = PyVal.vStr v → x ∉ v) :
    x ∉ r.key ++ ':' :: ' ' :: pyValStr r.count := by
  intro hm
  rcases List.mem_append.mp hm with h1 | h2
  · exact hk h1
  · rcases List.mem_cons.mp h2 with he | h3
    · exact hxc he
    · rcases List.mem_cons.mp h3 with he | h4
      · exact hxs he
      · exact not_mem_pyValStr hxm hxd hxg hv h4

theorem qty_line_no_char {x : Char} (hxs : x ≠ ' ') (hxc : x ≠ ':') (hxm : x ≠ '-')
    (hxd : x ≠ '.') (hxg : x.isDigit = false) {r : QtyRec}
    (hi : x ∉ r.item) (hu : x ∉ r.unit)
    (hv : ∀ v, r.value = PyVal.vStr v → x ∉ v) :
    x ∉ pyStrip (r.item ++ ' ' :: r.unit) ++ ':' :: ' ' :: pyValStr r.value := by
  intro hm
  rcases List.mem_append.mp hm with h1 | h2
  · rcases List.mem_append.mp (mem_of_mem_pyStrip h1) with h3 | h4
    · exact hi h3
    · rcases List.mem_cons.mp h4 with he | h5
      · exact hxs he
      · exact hu h5
  · rcases List.mem_cons.mp h2 with he | h3
    · exact hxc he
    · rcases List.mem_cons.mp h3 with he | h4
      · exact hxs he
      · exact not_mem_pyValStr hxm hxd hxg hv h4

theorem kv_to_text_reparse (ch : Bool) (rs : List KVRec)
    (h : ∀ r ∈ rs, GoodKV (if ch then chTrade else chType) r) :
    kvlist_to_json
      (if rs = [] then []
       else joinSep [',', ' ']
         (rs.map (fun r => kvGet (if ch then chTrade else chType) r
            ++ ':' :: ' ' :: pyValStr r.count))) ':' ',' ch = rs := by
  by_cases hrs : rs = []
  · subst hrs
    rw [if_pos rfl]
    unfold kvlist_to_json
    rw [if_pos (show pyStrip ([] : List Char) = [] from rfl)]
  · rw [if_neg hrs]
    have hmap : rs.map (fun r => kvGet (if ch then chTrade else chType) r
        ++ ':' :: ' ' :: pyValStr r.count)
        = rs.map (fun r => r.key ++ ':' :: ' ' :: pyValStr r.count) := by
      apply List.map_congr_left
      intro r hr
      unfold kvGet
      rw [if_pos (h r hr).1]
    rw [hmap]
    obtain ⟨r0, rs', hrs0⟩ : ∃ r0 rs', rs = r0 :: rs' := by
      cases rs with
      | nil => cases hrs rfl
      | cons a as => exact ⟨a, as, rfl⟩
    have hPne : rs.map (fun r => r.key ++ ':' :: ' ' :: pyValStr r.count) ≠ [] := by
      simp [hrs]
    have hnocomma : ∀ p ∈ rs.map (fun r => r.key ++ ':' :: ' ' :: pyValStr r.count),
        ',' ∉ p := by
      intro p hp
      rw [List.mem_map] at hp
      obtain ⟨r, hr, rfl⟩ := hp
      exact kv_piece_no_char (by decide) (by decide) (by decide) (by decide) (by decide)
        (h r hr).2.2.1 (fun v hv => (GoodCount_vStr_chars (h r hr).2.2.2.2.2 v hv).1)
    have hnonl : '\n' ∉ joinSep [',', ' ']
        (rs.map (fun r => r.key ++ ':' :: ' ' :: pyValStr r.count)) := by
      intro hm
      rcases mem_joinSep hm with hs | ⟨p, hp, hcp⟩
      · exact absurd hs (by decide)
      · rw [List.mem_map] at hp
        obtain ⟨r, hr, rfl⟩ := hp
        exact kv_piece_no_char (by decide) (by decide) (by decide) (by decide) (by decide)
          (h r hr).2.2.2.2.1
          (fun v hv => (GoodCount_vStr_chars (h r hr).2.2.2.2.2 v hv).2) hcp
    have hcolmem : ':' ∈ joinSep [',', ' ']
        (rs.map (fun r => r.key ++ ':' :: ' ' :: pyValStr r.count)) := by
      rw [hrs0, List.map_cons]
      exact subset_joinSep_head (List.mem_append.mpr (Or.inr (List.mem_cons_self ':' _)))
    rw [kvlist_eq_filterMap,
      if_neg (pyStrip_ne_nil_of_mem hcolmem (by decide)),
      replaceChar_eq_self ',' hnonl,
      map_pyStrip_split_join ',' (by decide) hPne hnocomma,
      List.map_map]
    have hall : ∀ x ∈ rs.map (pyStrip ∘ fun r => r.key ++ ':' :: ' ' :: pyValStr r.count),
        (':' : Char) ∈ x := by
      intro x hx
      rw [List.mem_map] at hx
      obtain ⟨r, hr, rfl⟩ := hx
      show ':' ∈ pyStrip _
      rw [mem_pyStrip_iff (by decide)]
      exact List.mem_append.mpr (Or.inr (List.mem_cons_self ':' _))
    have hfilter : (rs.map (pyStrip ∘ fun r => r.key ++ ':' :: ' ' :: pyValStr r.count)).filter
        (· ≠ []) = rs.map (pyStrip ∘ fun r => r.key ++ ':' :: ' ' :: pyValStr r.count) := by
      rw [List.filter_eq_self]
      intro a ha
      simpa using List.ne_nil_of_mem (hall a ha)
    rw [hfilter, filterMap_if_of_all _ _ hall, List.map_map]
    have hid : ∀ r ∈ rs,
        (kvItemRec ':' ch ∘ (pyStrip ∘ fun r => r.key ++ ':' :: ' ' :: pyValStr r.count)) r
          = r := by
      intro r hr
      show kvItemRec ':' ch (pyStrip (r.key ++ ':' :: ' ' :: pyValStr r.count)) = r
      rw [kvItemRec_strip ':' (by decide) ch _
        (List.mem_append.mpr (Or.inr (List.mem_cons_self ':' _)))]
      exact kvItemRec_piece ch r (h r hr)
    rw [List.map_congr_left hid]
    simp

theorem acts_to_text_reparse (rs : List ActRec) (h : ∀ r ∈ rs, GoodAct r) :
    actsParse (acts_to_text rs) = rs := by
  by_cases hrs : rs = []
  · subst hrs
    decide
  · unfold acts_to_text
    rw [if_neg hrs]
    have hnosemi : ∀ p ∈ rs.map (fun a => a.description), ';' ∉ p := by
      intro p hp
      rw [List.mem_map] at hp
      obtain ⟨r, hr, rfl⟩ := hp
      exact (h r hr).2.2.2.1
    have hnonl : '\n' ∉ joinSep [';', ' '] (rs.map (fun a => a.description)) := by
      intro hm
      rcases mem_joinSep hm with hs | ⟨p, hp, hcp⟩
      · exact absurd hs (by decide)
      · rw [List.mem_map] at hp
        obtain ⟨r, hr, rfl⟩ := hp
        exact (h r hr).2.2.2.2 hcp
    unfold actsParse
    rw [show sepSemiSpace = [';', ' '] from rfl]
    rw [replaceChar_eq_self ';' hnonl,
      map_pyStrip_split_join ';' (by decide) (by simp [hrs]) hnosemi,
      List.map_map]
    have hstrip : ∀ r ∈ rs, (pyStrip ∘ fun a => a.description) r = r.description :=
      fun r hr => (h r hr).2.2.1
    rw [List.map_congr_left hstrip]
    have hfilter : (rs.map (fun a => a.description)).filter (· ≠ [])
        = rs.map (fun a => a.description) := by
      rw [List.filter_eq_self]
      intro a ha
      rw [List.mem_map] at ha
      obtain ⟨r, hr, rfl⟩ := ha
      simpa using (h r hr).2.1
    rw [hfilter, List.map_map]
    have hid : ∀ r ∈ rs,
        ((fun p => ({ location := [], description := p } : ActRec)) ∘
          fun a => a.description) r = r := by
      intro r hr
      obtain ⟨loc, desc⟩ := r
      show ActRec.mk [] desc = ActRec.mk loc desc
      rw [show loc = [] from (h _ hr).1]
    rw [List.map_congr_left hid]
    simp

theorem qty_to_text_reparse (rs : List QtyRec) (h : ∀ r ∈ rs, GoodQty r) :
    qty_to_json (qtys_to_text rs) = rs := by
  by_cases hrs : rs = []
  · subst hrs
    decide
  · unfold qtys_to_text
    rw [if_neg hrs]
    have hcolmem : ':' ∈ joinSep ['\n'] (rs.map (fun q =>
        pyStrip (q.item ++ ' ' :: q.unit) ++ ':' :: ' ' :: pyValStr q.value)) := by
      obtain ⟨r0, rs', rfl⟩ : ∃ r0 rs', rs = r0 :: rs' := by
        cases rs with
        | nil => cases hrs rfl
        | cons a as => exact ⟨a, as, rfl⟩
      rw [List.map_cons]
      exact subset_joinSep_head (List.mem_append.mpr (Or.inr (List.mem_cons_self ':' _)))
    have hlines : ∀ p ∈ rs.map (fun q =>
        pyStrip (q.item ++ ' ' :: q.unit) ++ ':' :: ' ' :: pyValStr q.value),
        p ≠ [] ∧ '\n' ∉ p ∧ '\r' ∉ p := by
      intro p hp
      rw [List.mem_map] at hp
      obtain ⟨r, hr, rfl⟩ := hp
      obtain ⟨⟨_, hin, hir⟩, ⟨_, hun, hur⟩, hval, _⟩ := h r hr
      refine ⟨by simp, ?_, ?_⟩
      · exact qty_line_no_char (by decide) (by decide) (by decide) (by decide) (by decide)
          hin hun (fun v hv => (GoodVal_vStr_chars hval v hv).1)
      · exact qty_line_no_char (by decide) (by decide) (by decide) (by decide) (by decide)
          hir hur (fun v hv => (GoodVal_vStr_chars hval v hv).2)
    rw [qty_eq_filterMap,
      if_neg (pyStrip_ne_nil_of_mem hcolmem (by decide)),
      splitLines_join hlines, List.map_map]
    have hall : ∀ x ∈ rs.map (pyStrip ∘ fun q =>
        pyStrip (q.item ++ ' ' :: q.unit) ++ ':' :: ' ' :: pyValStr q.value),
        (':' : Char) ∈ x := by
      intro x hx
      rw [List.mem_map] at hx
      obtain ⟨r, hr, rfl⟩ := hx
      show ':' ∈ pyStrip _
      rw [mem_pyStrip_iff (by decide)]
      exact List.mem_append.mpr (Or.inr (List.mem_cons_self ':' _))
    have hfilter : (rs.map (pyStrip ∘ fun q =>
        pyStrip (q.item ++ ' ' :: q.unit) ++ ':' :: ' ' :: pyValStr q.value)).filter (· ≠ [])
        = rs.map (pyStrip ∘ fun q =>
          pyStrip (q.item ++ ' ' :: q.unit) ++ ':' :: ' ' :: pyValStr q.value) := by
      rw [List.filter_eq_self]
      intro a ha
      simpa using List.ne_nil_of_mem (hall a ha)
    rw [hfilter, filterMap_if_of_all _ _ hall, List.map_map]
    have hid : ∀ r ∈ rs, (qtyLineRec ∘ (pyStrip ∘ fun q =>
        pyStrip (q.item ++ ' ' :: q.unit) ++ ':' :: ' ' :: pyValStr q.value)) r = r := by
      intro r hr
      show qtyLineRec (pyStrip (pyStrip (r.item ++ ' ' :: r.unit)
        ++ ':' :: ' ' :: pyValStr r.value)) = r
      rw [qtyLineRec_strip _ (List.mem_append.mpr (Or.inr (List.mem_cons_self ':' _)))]
      exact qtyLineRec_piece r (h r hr)
    rw [List.map_congr_left hid]
    simp

/-! ## Claim C1 -/

/-- The merge policy exactly as claim C1 states it: for all six fields,
manual wins iff the manual value is non-empty, where non-empty means a
non-empty parsed sequence for the four list fields and a non-empty,
non-whitespace string for safety and issuesDelays. -/
def C1Stated : Prop :=
  ∀ tc te ta tq tsub ts ti (ex : ExtractedFields),
    ((mergeFields tc te ta tq tsub ts ti ex).crew_counts_final =
      if kvlist_to_json tc ':' ',' true = [] then ex.crew_counts
      else kvlist_to_json tc ':' ',' true) ∧
    ((mergeFields tc te ta tq tsub ts ti ex).equipment_final =
      if kvlist_to_json te ':' ',' false = [] then ex.equipment
      else kvlist_to_json te ':' ',' false) ∧
    ((mergeFields tc te ta tq tsub ts ti ex).activities_final =
      if actsParse ta = [] then ex.activities else actsParse ta) ∧
    ((mergeFields tc te ta tq tsub ts ti ex).quantities_final =
      if qty_to_json tq = [] then ex.quantities else qty_to_json tq) ∧
    ((mergeFields tc te ta tq tsub ts ti ex).safety_final =
      if pyStrip ts = [] then ex.safety else ts) ∧
    ((mergeFields tc te ta tq tsub ts ti ex).issues_final =
      if pyStrip ti = [] then ex.issues_delays else ti)

/-- Claim C1, as stated, is false on the code: a whitespace-only manual
safety text (`" "`) is truthy in Python, so the merge keeps `" "` instead of
the extracted safety value; likewise the activities branch keys on the raw
trimmed text, not on the parsed sequence. -/
theorem c1_counterexample : C1Stated = False := by
  apply eq_false
  intro h
  have h5 := (h [] [] [] [] [] exSpace []
    { emptyExtracted with safety := exX }).2.2.2.2.1
  revert h5
  decide

/-- Claim C1 amended to the code's actual truthiness tests: for crewCounts,
equipment and quantities manual wins iff the parsed sequence is non-empty;
for activities manual wins iff the raw text is non-blank (the result then
being the parsed manual sequence, even when that is empty); for safety and
issuesDelays manual wins iff the raw string is non-empty, a whitespace-only
string counting as non-empty.  In every case the losing side is discarded
wholesale. -/
theorem c1_theorem :
    ∀ tc te ta tq tsub ts ti (ex : ExtractedFields),
      ((mergeFields tc te ta tq tsub ts ti ex).crew_counts_final =
        if kvlist_to_json tc ':' ',' true = [] then ex.crew_counts
        else kvlist_to_json tc ':' ',' true) ∧
      ((mergeFields tc te ta tq tsub ts ti ex).equipment_final =
        if kvlist_to_json te ':' ',' false = [] then ex.equipment
        else kvlist_to_json te ':' ',' false) ∧
      ((mergeFields tc te ta tq tsub ts ti ex).activities_final =
        if pyStrip ta = [] then ex.activities else actsParse ta) ∧
      ((mergeFields tc te ta tq tsub ts ti ex).quantities_final =
        if qty_to_json tq = [] then ex.quantities else qty_to_json tq) ∧
      ((mergeFields tc te ta tq tsub ts ti ex).safety_final =
        if ts = [] then ex.safety else ts) ∧
      ((mergeFields tc te ta tq tsub ts ti ex).issues_final =
        if ti = [] then ex.issues_delays else ti) := by
  intro tc te ta tq tsub ts ti ex
  refine ⟨?_, ?_, ?_, ?_, ?_, ?_⟩
  · by_cases h : kvlist_to_json tc ':' ',' true = [] <;> simp [mergeFields, h]
  · by_cases h : kvlist_to_json te ':' ',' false = [] <;> simp [mergeFields, h]
  · by_cases h : pyStrip ta = [] <;> simp [mergeFields, h]
  · by_cases h : qty_to_json tq = [] <;> simp [mergeFields, h]
  · by_cases h : ts = [] <;> simp [mergeFields, h]
  · by_cases h : ti = [] <;> simp [mergeFields, h]

/-! ## Claim C6 -/

/-- Claim C6: merging with extraction never invoked (the `use_llm` checkbox
off, or blank combined text) gives exactly the same record as merging with
an all-empty extraction result; and against the empty extraction, every
merged field equals the manual parse itself — in particular every field
whose manual value is empty comes out empty. -/
theorem c6_theorem :
    ∀ tc te ta tq tsub ts ti combined (r : ExtractedFields),
      (mergeFields tc te ta tq tsub ts ti (submitExtracted false combined r)
        = mergeFields tc te ta tq tsub ts ti (submitExtracted true combined emptyExtracted)) ∧
      (mergeFields tc te ta tq tsub ts ti emptyExtracted =
        { crew_counts_final := kvlist_to_json tc ':' ',' true,
          equipment_final := kvlist_to_json te ':' ',' false,
          activities_final := actsParse ta,
          quantities_final := qty_to_json tq,
          safety_final := ts,
          issues_final := ti,
          subs_present := str_to_list tsub }) := by
  intro tc te ta tq tsub ts ti combined r
  constructor
  · have h1 : submitExtracted false combined r = emptyExtracted := by
      unfold submitExtracted
      simp
    have h2 : submitExtracted true combined emptyExtracted = emptyExtracted := by
      unfold submitExtracted
      split <;> rfl
    rw [h1, h2]
  · unfold mergeFields emptyExtracted
    simp only [MergedFields.mk.injEq]
    refine ⟨?_, ?_, ?_, ?_, ?_, ?_, trivial⟩
    · split <;> simp_all
    · split <;> simp_all
    · split
      · rfl
      · next h => exact (actsParse_blank (by simpa using h)).symm
    · split <;> simp_all
    · split <;> simp_all
    · split <;> simp_all

/-! ## Claim C8 -/

/-- The photo loop keeps exactly the successful, non-empty-url uploads. -/
theorem photoUploadLoop_eq (results : List (Option (List Char))) :
    photoUploadLoop results = (results.filterMap id).filter (· ≠ []) := by
  suffices h : ∀ acc, results.foldl (fun acc r =>
      match r with
      | some url => if url ≠ [] then acc ++ [url] else acc
      | none => acc) acc = acc ++ (results.filterMap id).filter (· ≠ []) by
    simpa [photoUploadLoop] using h []
  induction results with
  | nil => intro acc; simp
  | cons r t ih =>
      intro acc
      cases r with
      | none => simpa using ih acc
      | some url =>
          by_cases hu : url = []
          · simp only [List.foldl_cons, hu]
            simpa using ih acc
          · simp only [List.foldl_cons, hu]
            rw [List.filterMap_cons]
            simp only [id]
            rw [List.filter_cons_of_pos (by simpa using hu)]
            rw [if_pos (by simpa using hu), ih (acc ++ [url])]
            simp

end DailyReport

namespace DailyReport
/-- Claim C8: each failed photo upload (an exception, modelled `none`, or a
caught upload error returning the empty url) is simply omitted: `photoUrls`
is exactly the ordered list of successful non-empty urls, and with one of
two uploads failing exactly one entry survives, whichever position failed. -/
theorem c8_theorem :
    (∀ results : List (Option (List Char)),
      photoUploadLoop results = (results.filterMap id).filter (· ≠ [])) ∧
    photoUploadLoop [some exUrl1, none] = [exUrl1] ∧
    photoUploadLoop [none, some exUrl1] = [exUrl1] ∧
    photoUploadLoop [some exUrl1, some []] = [exUrl1] := by
  refine ⟨photoUploadLoop_eq, ?_, ?_, ?_⟩ <;> decide

/-- Claim C9: the persist step returns success exactly when the store is
ready and the insert succeeded; on failure the session state is returned
untouched, on success it is exactly `reset_all_fields` of the old state
(all prefills cleared, recording buffer and hash dropped); and success is
reported if and only if the state was reset — the reset state always
differs from the old one (the nonce increments), so a caller can never
observe one without the other. -/
theorem c9_theorem :
    ∀ (storeReady insertOk : Bool) (st : SessionState),
      (submitPersist storeReady insertOk st
        = ((storeReady && insertOk),
           if storeReady && insertOk then reset_all_fields st else st)) ∧
      ((reset_all_fields st).recorded_audio = none ∧
       (reset_all_fields st).transcript_prefill = [] ∧
       (reset_all_fields st).audio_hash = none ∧
       (reset_all_fields st).crew_prefill = [] ∧
       (reset_all_fields st).equip_prefill = [] ∧
       (reset_all_fields st).acts_prefill = [] ∧
       (reset_all_fields st).qty_prefill = [] ∧
       (reset_all_fields st).safety_prefill = [] ∧
       (reset_all_fields st).issues_prefill = []) ∧
      ((submitPersist storeReady insertOk st).1 = true
        ↔ (submitPersist storeReady insertOk st).2 = reset_all_fields st) := by
  intro storeReady insertOk st
  have hne : st ≠ reset_all_fields st := by
    intro he
    have hn := congrArg SessionState.nonce he
    simp [reset_all_fields] at hn
  refine ⟨?_, ⟨rfl, rfl, rfl, rfl, rfl, rfl, rfl, rfl, rfl⟩, ?_⟩
  · cases storeReady <;> cases insertOk <;> simp [submitPersist]
  · cases storeReady <;> cases insertOk <;> simp [submitPersist] <;> exact hne

/-- Claim C10: the key-count and quantity normalizers emit records with an
empty key: `":5"` yields `{trade: "", count: 5}` and `": 35"` yields
`{item: "", unit: "", value: 35.0}`; the activities normalizer, in
contrast, only ever emits non-empty descriptions. -/
theorem c10_theorem :
    kvlist_to_json exC10Colon5 ':' ',' true
      = [{ keyName := chTrade, key := [], count := PyVal.vInt 5 }] ∧
    qty_to_json exC10ColonQty = [{ item := [], unit := [], value := PyVal.vFloat 35 }] ∧
    ∀ s, (actsParse s).all (fun a => !a.description.isEmpty) = true := by
  refine ⟨by decide, qty_exC10, ?_⟩
  intro s
  rw [List.all_eq_true]
  intro a ha
  unfold actsParse at ha
  rw [List.mem_map] at ha
  obtain ⟨p, hp, hpa⟩ := ha
  have hpne : p ≠ [] := by
    have := List.of_mem_filter hp
    simpa using this
  rw [← hpa]
  simpa using hpne

/-- Claim C2: `kvlist_to_json` is exactly the spec's KeyCountParser — items
are the comma-splits after newline normalization, colon-less items are
dropped, colon items are split on the first colon with both halves trimmed
and the value coerced int-then-float-then-string, the key field name coming
only from the caller's crew flag; on the spec's example it yields integer
counts, and a colon-less input yields the empty list. -/
theorem c2_theorem :
    (∀ (crew_hint : Bool) s,
      kvlist_to_json s ':' ',' crew_hint = specKeyCountParse crew_hint s) ∧
    (∀ (crew_hint : Bool) s,
      (kvlist_to_json s ':' ',' crew_hint).all
        (fun r => r.keyName == if crew_hint then chTrade else chType) = true) ∧
    kvlist_to_json exC2Crew ':' ',' true
      = [{ keyName := chTrade, key := strCarpenters, count := PyVal.vInt 6 },
         { keyName := chTrade, key := strIronworkers, count := PyVal.vInt 4 }] ∧
    kvlist_to_json exC2NoColon ':' ',' true = [] := by
  refine ⟨kvlist_eq_spec, ?_, by decide, by decide⟩
  intro crew_hint s
  rw [List.all_eq_true]
  intro r hr
  rw [kvlist_eq_filterMap] at hr
  split at hr
  · cases hr
  · rw [List.mem_filterMap] at hr
    obtain ⟨it, hit, hrec⟩ := hr
    split at hrec
    · cases hrec
      simp [kvItemRec]
    · cases hrec

/-- Claim C4: `qty_to_json` is exactly the spec's QuantityParser — each
non-blank line containing `:` is split on the first `:`, a trailing
purely-alphabetic token of the left half is peeled as the unit when at
least two tokens exist, the value is coerced float-then-string, and other
lines are skipped; on the spec's example the literal unit-peeling split is
produced. -/
theorem c4_theorem :
    (∀ s, qty_to_json s = specQuantityParse s) ∧
    qty_to_json exC4Qty
      = [{ item := strConcrete, unit := strCY, value := PyVal.vFloat 35 },
         { item := strLF, unit := strCurb, value := PyVal.vFloat 120 }] := by
  exact ⟨qty_eq_spec, qty_exC4⟩

/-! ## Claim C3 -/

theorem length_filterMap_if {α β : Type} (P : α → Prop) [DecidablePred P] (v : α → β)
    (l : List α) :
    (l.filterMap (fun x => if P x then some (v x) else none)).length
      = l.countP (fun x => decide (P x)) := by
  induction l with
  | nil => rfl
  | cons a t ih =>
      rw [List.filterMap_cons, List.countP_cons]
      by_cases hp : P a
      · simp [hp, ih]
      · simp [hp, ih]

/-- Claim C3 exactly as stated: both the count coercion of KeyCountParser
and the value coercion of QuantityParser attempt int first, then float,
then fall back to the trimmed string. -/
def C3Stated : Prop :=
  (∀ it, (kvItemRec ':' true it).count = pyCoerce (pyStrip (splitFirst ':' it).2)) ∧
  (∀ line, (qtyLineRec line).value = pyCoerce (qtyVal line))

/-- Claim C3, as stated, is false on the code: `qty_to_json` coerces with
`float` only (never `int`), so the line `"X: 35"` yields the float `35.0`
where an int-first coercion would yield the int `35`. -/
theorem c3_counterexample : C3Stated = False := by
  apply eq_false
  intro h
  have h2 := h.2 exC3QtyLine
  revert h2
  decide

/-- Claim C3 amended: the KeyCountParser count coercion attempts int, then
float, then falls back to the trimmed string, while the QuantityParser
value coercion attempts float only, then falls back to the trimmed string;
both are total, and no entry is ever discarded because of a coercion
failure — each parser emits exactly one record per separator-bearing item
or line. -/
theorem c3_theorem :
    (∀ v, (∃ n, pyInt v = some n ∧ pyCoerce v = PyVal.vInt n) ∨
      (pyInt v = none ∧ ∃ q, pyFloat v = some q ∧ pyCoerce v = PyVal.vFloat q) ∨
      (pyInt v = none ∧ pyFloat v = none ∧ pyCoerce v = PyVal.vStr v)) ∧
    (∀ v, (∃ q, pyFloat v = some q ∧ qtyCoerce v = PyVal.vFloat q) ∨
      (pyFloat v = none ∧ qtyCoerce v = PyVal.vStr v)) ∧
    (∀ s (crew_hint : Bool),
      (kvlist_to_json s ':' ',' crew_hint).length
        = (((splitChar ',' (replaceChar '\n' ',' s)).map pyStrip).filter (· ≠ [])).countP
            (fun it => decide ((':' : Char) ∈ it))) ∧
    (∀ s, (qty_to_json s).length
        = (((splitLines s).map pyStrip).filter (· ≠ [])).countP
            (fun line => decide ((':' : Char) ∈ line))) := by
  refine ⟨?_, ?_, ?_, ?_⟩
  · intro v
    unfold pyCoerce
    cases hi : pyInt v with
    | some n => exact Or.inl ⟨n, rfl, rfl⟩
    | none =>
        cases hf : pyFloat v with
        | some q => exact Or.inr (Or.inl ⟨rfl, q, rfl, rfl⟩)
        | none => exact Or.inr (Or.inr ⟨rfl, rfl, rfl⟩)
  · intro v
    unfold qtyCoerce
    cases hf : pyFloat v with
    | some q => exact Or.inl ⟨q, rfl, rfl⟩
    | none => exact Or.inr ⟨rfl, rfl⟩
  · intro s crew_hint
    rw [kvlist_eq_filterMap]
    by_cases hb : pyStrip s = []
    · rw [if_pos hb]
      rw [clean_split_nil ','
        (fun c hc hcs => (pyStrip_eq_nil_iff.mp hb) c (mem_of_mem_replace_nl hc hcs))]
      rfl
    · rw [if_neg hb]
      exact length_filterMap_if _ _ _
  · intro s
    rw [qty_eq_filterMap]
    by_cases hb : pyStrip s = []
    · rw [if_pos hb]
      rw [clean_lines_nil (pyStrip_eq_nil_iff.mp hb)]
      rfl
    · rw [if_neg hb]
      exact length_filterMap_if _ _ _

/-! ## Claim C5 -/

/-- Claim C5: each of the four normalizers is a total function (they are
plain Lean functions over every input string, so they return a sequence and
cannot raise); empty or whitespace-only input yields the empty sequence from
all four; and a single leading or trailing separator (the item separator
`,` for ListParser and KeyCountParser, the line break for QuantityParser,
`;` for ActivityParser) changes nothing — in particular it produces no
phantom empty entries. -/
theorem c5_theorem :
    (∀ (s : List Char) (ch : Bool), pyStrip s = [] →
      str_to_list s = [] ∧ kvlist_to_json s ':' ',' ch = [] ∧
      qty_to_json s = [] ∧ actsParse s = []) ∧
    (∀ (s : List Char) (ch : Bool),
      str_to_list (',' :: s) = str_to_list s ∧
      str_to_list (s ++ [',']) = str_to_list s ∧
      kvlist_to_json (',' :: s) ':' ',' ch = kvlist_to_json s ':' ',' ch ∧
      kvlist_to_json (s ++ [',']) ':' ',' ch = kvlist_to_json s ':' ',' ch ∧
      qty_to_json ('\n' :: s) = qty_to_json s ∧
      qty_to_json (s ++ ['\n']) = qty_to_json s ∧
      actsParse (';' :: s) = actsParse s ∧
      actsParse (s ++ [';']) = actsParse s) := by
  constructor
  · intro s ch h
    refine ⟨?_, ?_, ?_, actsParse_blank h⟩
    · unfold str_to_list
      rw [if_pos h]
    · unfold kvlist_to_json
      rw [if_pos h]
    · unfold qty_to_json
      rw [if_pos h]
  · intro s ch
    exact ⟨str_to_list_cons_sep s, str_to_list_concat_sep s, kvlist_cons_sep s ch,
      kvlist_concat_sep s ch, qty_cons_nl s, qty_concat_nl s,
      acts_cons_sep s, acts_concat_sep s⟩

/-! ## Claim C7 -/

/-- Claim C7: round-trip idempotence of the normalizers on their own
outputs.  For every input string, serializing the parsed crew counts with
`crew_to_text` and reparsing with `kvlist_to_json` (crew key) reproduces
the same records, and likewise for equipment (`equip_to_text`, type key),
activities (`acts_to_text`), and quantities (`qtys_to_text`).  Float cells
are modelled as exact rationals whose `str()` is the plain decimal repr, so
their round-trip is exact just as CPython's shortest-repr `float` → `str`
→ `float` is. -/
theorem c7_theorem (s : List Char) :
    kvlist_to_json (crew_to_text (kvlist_to_json s ':' ',' true)) ':' ',' true
      = kvlist_to_json s ':' ',' true ∧
    kvlist_to_json (equip_to_text (kvlist_to_json s ':' ',' false)) ':' ',' false
      = kvlist_to_json s ':' ',' false ∧
    actsParse (acts_to_text (actsParse s)) = actsParse s ∧
    qty_to_json (qtys_to_text (qty_to_json s)) = qty_to_json s := by
  refine ⟨?_, ?_, acts_to_text_reparse _ (acts_output_good s),
    qty_to_text_reparse _ (qty_output_good s)⟩
  · exact kv_to_text_reparse true _ (kv_output_good s true)
  · exact kv_to_text_reparse false _ (kv_output_good s false)

/-- Witness for C5's hypothesis: the whitespace-only input `" "` makes all
four normalizers return the empty sequence. -/
theorem c5_witness :
    str_to_list exSpace = [] ∧ kvlist_to_json exSpace ':' ',' true = [] ∧
    qty_to_json exSpace = [] ∧ actsParse exSpace = [] :=
  c5_theorem.1 exSpace true (by decide)

end DailyReport